import Mathlib

/-!
Shallow embedding of the py-quick-cache in-memory cache engine.

The engine is `InMemoryCache` in `cache.py`: an ordered key→entry store with
TTL-based lazy expiration, capacity enforcement through a pluggable eviction
policy, and a metrics recorder (`metrics.py`).  The eviction policies (LRU,
FIFO, LFU) live in `src/pyquickcache/eviction_policy/`.

Modelling conventions:
- Python's `OrderedDict` is an association list preserving insertion order;
  assignment to an existing key replaces the value in place, assignment to a
  fresh key appends at the end.
- Wall-clock time (`datetime.now()`) is an explicit `now : Nat` argument to
  every operation; an entry with `expiration_time = e` is expired at `now`
  iff `now > e`, mirroring `CacheEntry.is_expired`.
- A Python exception escaping an operation (KeyError / RuntimeError) is
  modelled by the operation returning `none`; a returned `CacheResponse`
  is `some`.
- Python ints are `Int`/`Nat`; the float divisions in `CacheMetrics.snapshot`
  are modelled as exact rational division over `Rat`.
- The `while` loop of `_ensure_capacity` is modelled with explicit fuel equal
  to the store size when entered; running out of fuel yields `none`
  (the source loop can only fail to make progress by raising).
-/

namespace PyQuickCache

/-- A Python value passed as a `ttl_sec` argument: an integer or a string.
(`None` / an omitted argument is modelled by `Option.none` at the call site
of `add`, matching the `ttl_sec: int = None` default.) -/
inductive TTLArg where
  | int (n : Int)
  | str (s : String)
deriving DecidableEq, Repr

/-- Python truthiness of a ttl argument: `0` and `""` are falsy. -/
def ttlTruthy : TTLArg → Bool
  | .int n => n != 0
  | .str s => s != ""

/-- Python truthiness of the optional `ttl_sec` parameter of `add`
(`None` is falsy). -/
def ttlOptTruthy : Option TTLArg → Bool
  | none => false
  | some a => ttlTruthy a

/-- Accumulate a decimal digit string; any non-digit character is a
`ValueError` (`none`). -/
def pyDigitsAux : List Char → Nat → Option Nat
  | [], acc => some acc
  | c :: cs, acc => if c.isDigit then pyDigitsAux cs (10 * acc + (c.toNat - 48)) else none

/-- A nonempty all-digit character list, else `ValueError`. -/
def pyParseDigits : List Char → Option Nat
  | [] => none
  | cs => pyDigitsAux cs 0

/-- Python `int(s)` on a string: strip surrounding whitespace, optional
sign, then decimal digits; anything else raises `ValueError` (`none`). -/
def pyStrToInt (s : String) : Option Int :=
  match s.trim.data with
  | '-' :: cs => (pyParseDigits cs).map (fun n => -(n : Int))
  | '+' :: cs => (pyParseDigits cs).map (fun n => (n : Int))
  | cs => (pyParseDigits cs).map (fun n => (n : Int))

/-- Python `int(ttl_sec)`: identity on ints, string parsing on strings;
`none` models `ValueError`. -/
def pyToInt : TTLArg → Option Int
  | .int n => some n
  | .str s => pyStrToInt s

/-- `CacheEntry` from `cache.py`: the stored value, the absolute expiration
instant, and the raw `ttl_sec` argument (stored verbatim by the source). -/
structure CacheEntry where
  value : Nat
  expirationTime : Nat
  ttl : Option TTLArg
deriving DecidableEq, Repr

/-- `CacheEntry.is_expired`: `datetime.now() > self.expiration_time`. -/
def CacheEntry.isExpired (e : CacheEntry) (now : Nat) : Bool :=
  now > e.expirationTime

/-- Association-list lookup, the shallow embedding of `dict.get` /
`dict[key]` (first binding wins; reachable stores bind each key once). -/
def assocGet? [DecidableEq α] : List (α × β) → α → Option β
  | [], _ => none
  | kv :: rest, k => if kv.1 = k then some kv.2 else assocGet? rest k

/-- `key in dict`. -/
def assocContains [DecidableEq α] : List (α × β) → α → Bool
  | [], _ => false
  | kv :: rest, k => kv.1 = k || assocContains rest k

/-- `dict.pop(key)` on a key known to be present (removes the binding). -/
def assocErase [DecidableEq α] : List (α × β) → α → List (α × β)
  | [], _ => []
  | kv :: rest, k => if kv.1 = k then rest else kv :: assocErase rest k

/-- `dict[key] = value`: replace in place when present, append when fresh. -/
def assocSet [DecidableEq α] : List (α × β) → α → β → List (α × β)
  | [], k, v => [(k, v)]
  | kv :: rest, k, v => if kv.1 = k then (k, v) :: rest else kv :: assocSet rest k v

/-- The engine's `OrderedDict[str, CacheEntry]` store. -/
abbrev Store := List (String × CacheEntry)

/-- The key sequence of the store, in order. -/
def storeKeys (s : Store) : List String := s.map (·.1)

/-- `OrderedDict.move_to_end(key)`: detach the binding and re-append it
at the most-recently-used end (no-op invoked only on present keys by the
policies' `if key in cache` guards). -/
def moveToEnd (s : Store) (k : String) : Store :=
  match assocGet? s k with
  | none => s
  | some e => assocErase s k ++ [(k, e)]

/-- `CacheMetricsData` from `metrics.py`.  Counters are `Nat` (only ever
incremented); gauges are `Int` because `delete` decrements the valid-keys
gauge without clamping. -/
structure CacheMetricsData where
  hits : Nat
  misses : Nat
  sets : Nat
  gets : Nat
  failedOps : Nat
  evictions : Nat
  expiredRemovals : Nat
  manualDeletions : Nat
  currentValidKeys : Int
  peakValidKeys : Int
  currentTotalKeys : Int
  peakTotalKeys : Int
deriving DecidableEq, Repr

/-- All-zero metrics, as produced by `CacheMetricsData()`. -/
def initMetrics : CacheMetricsData :=
  ⟨0, 0, 0, 0, 0, 0, 0, 0, 0, 0, 0, 0⟩

def recordSet (m : CacheMetricsData) : CacheMetricsData := { m with sets := m.sets + 1 }

def recordHit (m : CacheMetricsData) : CacheMetricsData := { m with hits := m.hits + 1 }

def recordMiss (m : CacheMetricsData) : CacheMetricsData := { m with misses := m.misses + 1 }

def recordFailedOp (m : CacheMetricsData) : CacheMetricsData := { m with failedOps := m.failedOps + 1 }

def recordGet (m : CacheMetricsData) : CacheMetricsData := { m with gets := m.gets + 1 }

def recordEviction (m : CacheMetricsData) : CacheMetricsData := { m with evictions := m.evictions + 1 }

def recordExpiredRemoval (m : CacheMetricsData) : CacheMetricsData := { m with expiredRemovals := m.expiredRemovals + 1 }

def recordManualDeletion (m : CacheMetricsData) : CacheMetricsData := { m with manualDeletions := m.manualDeletions + 1 }

/-- `CacheMetrics.update_total_keys`: set the current total-keys gauge and
raise the peak if exceeded. -/
def updateTotalKeys (m : CacheMetricsData) (length : Nat) : CacheMetricsData :=
  let c : Int := length
  { m with currentTotalKeys := c,
           peakTotalKeys := if c > m.peakTotalKeys then c else m.peakTotalKeys }

/-- `CacheMetrics.update_valid_keys`: set the current valid-keys gauge and
raise the peak if exceeded. -/
def updateValidKeys (m : CacheMetricsData) (size : Int) : CacheMetricsData :=
  { m with currentValidKeys := size,
           peakValidKeys := if size > m.peakValidKeys then size else m.peakValidKeys }

/-- The derived part of `CacheMetrics.snapshot`, with Python's float
division modelled as exact division over `Rat`. -/
structure MetricsSnapshot where
  hitRatio : Rat
  missRatio : Rat
  getSetRatio : Rat
  evictionRate : Rat
  expiredRemovalRate : Rat
  expiredBloat : Int
  wastePercentage : Rat
deriving DecidableEq, Repr

/-- `CacheMetrics.snapshot`: every ratio whose denominator is not positive
defaults to `0.0`. -/
def snapshot (m : CacheMetricsData) : MetricsSnapshot where
  hitRatio := if m.gets > 0 then (m.hits : Rat) / (m.gets : Rat) else 0
  missRatio := if m.gets > 0 then (m.misses : Rat) / (m.gets : Rat) else 0
  getSetRatio := if m.sets > 0 then (m.gets : Rat) / (m.sets : Rat) else 0
  evictionRate := if m.sets > 0 then (m.evictions : Rat) / (m.sets : Rat) else 0
  expiredRemovalRate := if m.gets > 0 then (m.expiredRemovals : Rat) / (m.gets : Rat) else 0
  expiredBloat := m.currentTotalKeys - m.currentValidKeys
  wastePercentage :=
    if m.currentTotalKeys > 0 then
      ((m.currentTotalKeys - m.currentValidKeys : Int) : Rat) / (m.currentTotalKeys : Rat) * 100
    else 0

/-- The payload slot of a `CacheResponse.message`: `get` passes the raw
stored value positionally into the `message` field, every other path passes
a status string. -/
inductive Msg where
  | text (s : String)
  | val (v : Nat)
deriving DecidableEq, Repr

/-- `CacheResponse` from `cache.py` (`data` defaults to `None` and is never
set by the engine operations modelled here). -/
structure CacheResponse where
  success : Bool
  message : Msg
  data : Option Nat
deriving DecidableEq, Repr

def DEFAULT_TTL_SEC : Int := 5

def ERROR_TTL_INVALID : String := "TTL must be a positive natural number"

def ERROR_KEY_NOT_EXIST : String := "Key doesn't exist or is expired"

def ERROR_KEY_EXISTS : String := "A valid Key already exists"

/-- An eviction policy as the engine uses it: the engine only ever invokes
`on_update` (both on add and on update), `on_access`, and
`select_eviction_key`.  `σ` is the policy instance's private state (unit for
LRU/FIFO, frequency tables for LFU).  A hook returning `none` models an
exception escaping the hook; `selectEvictionKey` returning `none` models its
empty-store `RuntimeError` or an internal KeyError. -/
structure EvictionPolicy (σ : Type) where
  onUpdate : σ → Store → String → Option (σ × Store)
  onAccess : σ → Store → String → Option (σ × Store)
  selectEvictionKey : σ → Store → Option String

/-- `LRUEvictionPolicy`: every hook `move_to_end`s the key when present;
eviction selects the first (least recently used) key, raising on an empty
store. -/
def lruPolicy : EvictionPolicy Unit where
  onUpdate := fun _ s k => some ((), if assocContains s k then moveToEnd s k else s)
  onAccess := fun _ s k => some ((), if assocContains s k then moveToEnd s k else s)
  selectEvictionKey := fun _ s =>
    match s with
    | [] => none
    | kv :: _ => some kv.1

/-- `FIFOEvictionPolicy`: `on_update` and `on_access` are no-ops; eviction
selects the first (oldest inserted) key, raising on an empty store. -/
def fifoPolicy : EvictionPolicy Unit where
  onUpdate := fun _ s _ => some ((), s)
  onAccess := fun _ s _ => some ((), s)
  selectEvictionKey := fun _ s =>
    match s with
    | [] => none
    | kv :: _ => some kv.1

/-- The private state of `LFUEvictionPolicy`: key→frequency map,
frequency→ordered-key-bucket table, and the tracked minimum frequency. -/
structure LFUState where
  freq : List (String × Nat)
  freqTable : List (Nat × List String)
  minFreq : Nat
deriving DecidableEq, Repr

/-- A fresh `LFUEvictionPolicy.__init__` state. -/
def lfuInit : LFUState := ⟨[], [], 0⟩

/-- `bucket[key] = None` on an ordered-dict bucket: appends a fresh key,
keeps the position of an existing one. -/
def bucketAdd (b : List String) (k : String) : List String :=
  if b.contains k then b else b ++ [k]

/-- `min(keys, default=d)`. -/
def listMinD (l : List Nat) (d : Nat) : Nat :=
  match l with
  | [] => d
  | x :: xs => xs.foldl min x

/-- `LFUEvictionPolicy.on_add`: seat the key at frequency 1 and reset the
tracked minimum frequency to 1.  The engine in `cache.py` never calls this
hook (its add path fires `on_update` instead). -/
def lfuOnAdd (st : LFUState) (key : String) : LFUState :=
  let frequency := 1
  let freq1 := assocSet st.freq key frequency
  let table1 := if assocContains st.freqTable frequency then st.freqTable
                else assocSet st.freqTable frequency []
  let bucket := (assocGet? table1 frequency).getD []
  let table2 := assocSet table1 frequency (bucketAdd bucket key)
  ⟨freq1, table2, frequency⟩

/-- `LFUEvictionPolicy._touch`: increment the key's frequency, moving it
between buckets and maintaining `min_freq`.  `self.freq[key]`,
`self.freq_table[old_freq]` and `bucket.pop(key)` raise `KeyError` (`none`)
when the key was never seated. -/
def lfuTouch (st : LFUState) (key : String) : Option LFUState :=
  match assocGet? st.freq key with
  | none => none
  | some oldFreq =>
    let newFreq := oldFreq + 1
    let freq1 := assocSet st.freq key newFreq
    match assocGet? st.freqTable oldFreq with
    | none => none
    | some bucket =>
      if bucket.contains key then
        let bucket1 := bucket.erase key
        let tm : List (Nat × List String) × Nat :=
          if bucket1.isEmpty then
            let t := assocErase st.freqTable oldFreq
            (t, if st.minFreq = oldFreq then listMinD (t.map (·.1)) newFreq else st.minFreq)
          else (assocSet st.freqTable oldFreq bucket1, st.minFreq)
        let table2 := if assocContains tm.1 newFreq then tm.1 else assocSet tm.1 newFreq []
        let bucket2 := (assocGet? table2 newFreq).getD []
        some ⟨freq1, assocSet table2 newFreq (bucketAdd bucket2 key), tm.2⟩
      else none

/-- `LFUEvictionPolicy.select_eviction_key`: raise on an empty store, else
return the head of the minimum-frequency bucket (`none` also models the
KeyError / StopIteration of a desynchronised table). -/
def lfuSelect (st : LFUState) (cache : Store) : Option String :=
  match cache with
  | [] => none
  | _ :: _ =>
    match assocGet? st.freqTable st.minFreq with
    | none => none
    | some bucket => bucket.head?

/-- The LFU policy as wired into the engine (`on_update`/`on_access` both
call `_touch`; the store itself is untouched). -/
def lfuPolicy : EvictionPolicy LFUState where
  onUpdate := fun ps s k => (lfuTouch ps k).map (fun ps1 => (ps1, s))
  onAccess := fun ps s k => (lfuTouch ps k).map (fun ps1 => (ps1, s))
  selectEvictionKey := fun ps s => lfuSelect ps s

/-- The mutable state of one `InMemoryCache` instance: the store, the
metrics recorder's data, and the policy instance's private state. -/
structure EngineState (σ : Type) where
  cache : Store
  metrics : CacheMetricsData
  policyState : σ
deriving DecidableEq, Repr

/-- A freshly constructed engine: empty store, zero metrics. -/
def initState (ps : σ) : EngineState σ :=
  ⟨[], initMetrics, ps⟩

/-- `InMemoryCache._check_key_validity_and_remove_expired`: `False` for a
missing key; for an expired key, pop it, record the expired removal, refresh
the total gauge and clamp-decrement the valid gauge, and return `False`;
`True` for a live key. -/
def checkKeyValidityAndRemoveExpired (now : Nat) (key : String) (st : EngineState σ) :
    Bool × EngineState σ :=
  match assocGet? st.cache key with
  | none => (false, st)
  | some entry =>
    if entry.isExpired now then
      let cache1 := assocErase st.cache key
      let m1 := recordExpiredRemoval st.metrics
      let m2 := updateTotalKeys m1 cache1.length
      let m3 := updateValidKeys m2 (max 0 (m2.currentValidKeys - 1))
      (false, ⟨cache1, m3, st.policyState⟩)
    else (true, st)

/-- The `for key in list(self.cache.keys())` sweep inside `cleanup`. -/
def sweep (now : Nat) : List String → EngineState σ → EngineState σ
  | [], st => st
  | k :: ks, st => sweep now ks (checkKeyValidityAndRemoveExpired now k st).2

/-- `InMemoryCache.cleanup`: remove every expired entry, then resync both
gauges to the post-sweep physical size.  (The summary dict it returns is not
modelled; no engine path consumes it.) -/
def cleanup (now : Nat) (st : EngineState σ) : EngineState σ :=
  let st1 := sweep now (storeKeys st.cache) st
  let m1 := updateTotalKeys st1.metrics st1.cache.length
  let m2 := updateValidKeys m1 (st1.cache.length : Int)
  ⟨st1.cache, m2, st1.policyState⟩

/-- The `while self.size() >= self.max_cache_size` eviction loop of
`_ensure_capacity`, with explicit fuel.  `none` models the policy raising
from `select_eviction_key`, `cache.pop` raising on a stale victim, or the
fuel running out. -/
def evictLoop (p : EvictionPolicy σ) (cap : Nat) : Nat → EngineState σ → Option (EngineState σ)
  | 0, st => if st.cache.length ≥ cap then none else some st
  | fuel + 1, st =>
    if st.cache.length ≥ cap then
      match p.selectEvictionKey st.policyState st.cache with
      | none => none
      | some k =>
        if assocContains st.cache k then
          let cache1 := assocErase st.cache k
          let m1 := recordEviction st.metrics
          let m2 := updateTotalKeys m1 cache1.length
          let m3 := updateValidKeys m2 (cache1.length : Int)
          evictLoop p cap fuel ⟨cache1, m3, st.policyState⟩
        else none
    else some st

/-- `InMemoryCache._ensure_capacity`: a full cleanup, then the eviction
loop (fuel = post-cleanup size, which suffices for any capacity ≥ 1). -/
def ensureCapacity (p : EvictionPolicy σ) (cap : Nat) (now : Nat) (st : EngineState σ) :
    Option (EngineState σ) :=
  let st1 := cleanup now st
  evictLoop p cap st1.cache.length st1

/-- `InMemoryCache.add`'s ttl resolution: a falsy `ttl_sec` (omitted, 0, or
an empty string) selects the default ttl; otherwise `int(ttl_sec)` must
yield a positive value, else `none` (the InvalidTTL response). -/
def resolveAddTTL (ttlSec : Option TTLArg) : Option Int :=
  if ttlOptTruthy ttlSec = false then some DEFAULT_TTL_SEC
  else
    match ttlSec with
    | none => some DEFAULT_TTL_SEC
    | some a =>
      match pyToInt a with
      | none => none
      | some t => if t ≤ 0 then none else some t

/-- The tail of `InMemoryCache.add` once the new key is known not to map to
a live entry: enforce capacity when at/above it, insert the new entry,
record the set and bump both gauges, and finally fire the policy's
`on_update` hook (this engine never calls `on_add`). -/
def addInsert (p : EvictionPolicy σ) (cap : Nat) (now : Nat) (key : String) (value : Nat)
    (ttlSec : Option TTLArg) (ttl : Int) (st1 : EngineState σ) :
    Option (CacheResponse × EngineState σ) :=
  match (if st1.cache.length ≥ cap then ensureCapacity p cap now st1 else some st1 :
      Option (EngineState σ)) with
  | none => none
  | some st2 =>
    let entry : CacheEntry := ⟨value, now + ttl.toNat, ttlSec⟩
    let cache1 := assocSet st2.cache key entry
    let m1 := recordSet st2.metrics
    let m2 := updateTotalKeys m1 cache1.length
    let m3 := updateValidKeys m2 (m2.currentValidKeys + 1)
    match p.onUpdate st2.policyState cache1 key with
    | none => none
    | some (ps1, cache2) => some (⟨true, Msg.text "Key added", none⟩, ⟨cache2, m3, ps1⟩)

/-- `InMemoryCache.add`: validate ttl; reject a live duplicate (recording a
failed op) and purge an expired one; then run the insert tail
(`addInsert`). -/
def add (p : EvictionPolicy σ) (cap : Nat) (now : Nat) (key : String) (value : Nat)
    (ttlSec : Option TTLArg) (st : EngineState σ) : Option (CacheResponse × EngineState σ) :=
  match resolveAddTTL ttlSec with
  | none => some (⟨false, Msg.text ERROR_TTL_INVALID, none⟩, st)
  | some ttl =>
    if assocContains st.cache key then
      match checkKeyValidityAndRemoveExpired now key st with
      | (true, st1) =>
        some (⟨false, Msg.text ERROR_KEY_EXISTS, none⟩,
          ⟨st1.cache, recordFailedOp st1.metrics, st1.policyState⟩)
      | (false, st1) => addInsert p cap now key value ttlSec ttl st1
    else addInsert p cap now key value ttlSec ttl st

/-- `InMemoryCache.update`: validate ttl; KeyNotFound for a missing or
expired key (purging the expired one, recording a failed op); otherwise
replace the entry in place, fire `on_update`, record the set and refresh
the gauges (valid gauge rewritten with its current value). -/
def update (p : EvictionPolicy σ) (now : Nat) (key : String) (value : Nat)
    (ttlSec : TTLArg) (st : EngineState σ) : Option (CacheResponse × EngineState σ) :=
  match pyToInt ttlSec with
  | none => some (⟨false, Msg.text ERROR_TTL_INVALID, none⟩, st)
  | some ttl =>
    if ttl ≤ 0 then some (⟨false, Msg.text ERROR_TTL_INVALID, none⟩, st)
    else if assocContains st.cache key = false then
      some (⟨false, Msg.text ERROR_KEY_NOT_EXIST, none⟩,
        ⟨st.cache, recordFailedOp st.metrics, st.policyState⟩)
    else
      match checkKeyValidityAndRemoveExpired now key st with
      | (false, st1) =>
        some (⟨false, Msg.text ERROR_KEY_NOT_EXIST, none⟩,
          ⟨st1.cache, recordFailedOp st1.metrics, st1.policyState⟩)
      | (true, st1) =>
        let entry : CacheEntry := ⟨value, now + ttl.toNat, some ttlSec⟩
        let cache1 := assocSet st1.cache key entry
        match p.onUpdate st1.policyState cache1 key with
        | none => none
        | some (ps1, cache2) =>
          let m1 := recordSet st1.metrics
          let m2 := updateTotalKeys m1 cache2.length
          let m3 := updateValidKeys m2 m2.currentValidKeys
          some (⟨true, Msg.text "Key updated", none⟩, ⟨cache2, m3, ps1⟩)

/-- `InMemoryCache.get`: record the get attempt first; KeyNotFound plus a
miss for a missing or expired key (purging the expired one); otherwise fire
`on_access`, record a hit, and return the stored value (passed positionally
into the response's message slot by the source). -/
def get (p : EvictionPolicy σ) (now : Nat) (key : String) (st : EngineState σ) :
    Option (CacheResponse × EngineState σ) :=
  let st0 : EngineState σ := ⟨st.cache, recordGet st.metrics, st.policyState⟩
  if assocContains st0.cache key = false then
    some (⟨false, Msg.text ERROR_KEY_NOT_EXIST, none⟩,
      ⟨st0.cache, recordMiss st0.metrics, st0.policyState⟩)
  else
    match checkKeyValidityAndRemoveExpired now key st0 with
    | (false, st1) =>
      some (⟨false, Msg.text ERROR_KEY_NOT_EXIST, none⟩,
        ⟨st1.cache, recordMiss st1.metrics, st1.policyState⟩)
    | (true, st1) =>
      match p.onAccess st1.policyState st1.cache key with
      | none => none
      | some (ps1, cache1) =>
        match assocGet? cache1 key with
        | none => none
        | some e =>
          some (⟨true, Msg.val e.value, none⟩, ⟨cache1, recordHit st1.metrics, ps1⟩)

/-- `InMemoryCache.delete`: KeyNotFound for a missing or expired key
(purging the expired one); otherwise pop the entry, record the manual
deletion, refresh the total gauge and decrement the valid gauge without a
clamp.  No policy hook fires. -/
def delete (now : Nat) (key : String) (st : EngineState σ) :
    Option (CacheResponse × EngineState σ) :=
  if assocContains st.cache key = false then
    some (⟨false, Msg.text ERROR_KEY_NOT_EXIST, none⟩, st)
  else
    match checkKeyValidityAndRemoveExpired now key st with
    | (false, st1) => some (⟨false, Msg.text ERROR_KEY_NOT_EXIST, none⟩, st1)
    | (true, st1) =>
      let cache1 := assocErase st1.cache key
      let m1 := recordManualDeletion st1.metrics
      let m2 := updateTotalKeys m1 cache1.length
      let m3 := updateValidKeys m2 (m2.currentValidKeys - 1)
      some (⟨true, Msg.text "Key deleted", none⟩, ⟨cache1, m3, st1.policyState⟩)

/-- One public engine call, for running concrete scenarios. -/
inductive EngineOp where
  | addOp (key : String) (value : Nat) (ttlSec : Option TTLArg)
  | updateOp (key : String) (value : Nat) (ttlSec : TTLArg)
  | getOp (key : String)
  | deleteOp (key : String)
deriving DecidableEq, Repr

/-- Dispatch one call on the engine. -/
def runOp (p : EvictionPolicy σ) (cap : Nat) (now : Nat) :
    EngineOp → EngineState σ → Option (CacheResponse × EngineState σ)
  | .addOp k v t, st => add p cap now k v t st
  | .updateOp k v t, st => update p now k v t st
  | .getOp k, st => get p now k st
  | .deleteOp k, st => delete now k st

/-- Run a sequence of calls, requiring every call to return a successful
response (`none` if any call raises or reports failure). -/
def runOpsOk (p : EvictionPolicy σ) (cap : Nat) (now : Nat) :
    List EngineOp → EngineState σ → Option (EngineState σ)
  | [], st => some st
  | op :: ops, st =>
    match runOp p cap now op st with
    | none => none
    | some (r, st1) => if r.success then runOpsOk p cap now ops st1 else none

/-- The states of an engine (capacity `cap`, policy `p`, initial policy
state `ps0`) reachable from construction through any finite sequence of
completed public calls, each at an arbitrary instant. -/
inductive Reach (p : EvictionPolicy σ) (cap : Nat) (ps0 : σ) : EngineState σ → Prop where
  | init : Reach p cap ps0 (initState ps0)
  | addStep {st now key value ttlSec r st'} : Reach p cap ps0 st →
      add p cap now key value ttlSec st = some (r, st') → Reach p cap ps0 st'
  | updateStep {st now key value ttlSec r st'} : Reach p cap ps0 st →
      update p now key value ttlSec st = some (r, st') → Reach p cap ps0 st'
  | getStep {st now key r st'} : Reach p cap ps0 st →
      get p now key st = some (r, st') → Reach p cap ps0 st'
  | deleteStep {st now key r st'} : Reach p cap ps0 st →
      delete now key st = some (r, st') → Reach p cap ps0 st'
  | cleanupStep {st now} : Reach p cap ps0 st → Reach p cap ps0 (cleanup now st)

end PyQuickCache
namespace PyQuickCache

variable {α : Type} {β : Type} [DecidableEq α]

theorem assocGet_isSome_eq (l : List (α × β)) (k : α) :
    (assocGet? l k).isSome = assocContains l k := by
  induction l with
  | nil => rfl
  | cons kv rest ih =>
    by_cases h : kv.1 = k <;> simp [assocGet?, assocContains, h, ih]

theorem assocContains_iff_mem (l : List (α × β)) (k : α) :
    assocContains l k = true ↔ k ∈ l.map (·.1) := by
  induction l with
  | nil => simp [assocContains]
  | cons kv rest ih =>
    simp only [assocContains, Bool.or_eq_true, decide_eq_true_eq, List.map_cons,
      List.mem_cons, ih]
    exact or_congr eq_comm Iff.rfl

theorem length_assocErase_of_get (l : List (α × β)) (k : α) (e : β)
    (h : assocGet? l k = some e) : (assocErase l k).length + 1 = l.length := by
  induction l with
  | nil => simp [assocGet?] at h
  | cons kv rest ih =>
    by_cases hk : kv.1 = k
    · simp [assocErase, hk]
    · simp only [assocGet?, if_neg hk] at h
      have := ih h
      simp only [assocErase, if_neg hk, List.length_cons]
      omega

theorem length_assocErase_le (l : List (α × β)) (k : α) :
    (assocErase l k).length ≤ l.length := by
  induction l with
  | nil => simp [assocErase]
  | cons kv rest ih =>
    by_cases hk : kv.1 = k <;> simp only [assocErase, hk, if_pos, if_neg,
      if_true, if_false, List.length_cons] <;> omega

theorem keys_assocErase_sublist (l : List (α × β)) (k : α) :
    List.Sublist ((assocErase l k).map (·.1)) (l.map (·.1)) := by
  induction l with
  | nil => simp [assocErase]
  | cons kv rest ih =>
    by_cases hk : kv.1 = k
    · simp only [assocErase, if_pos hk, List.map_cons]
      exact List.sublist_cons_self _ _
    · simpa [assocErase, hk] using ih.cons₂ kv.1

theorem nodup_assocErase (l : List (α × β)) (k : α)
    (h : (l.map (·.1)).Nodup) : ((assocErase l k).map (·.1)).Nodup :=
  h.sublist (keys_assocErase_sublist l k)

theorem not_contains_assocErase_of_nodup (l : List (α × β)) (k : α)
    (h : (l.map (·.1)).Nodup) : assocContains (assocErase l k) k = false := by
  induction l with
  | nil => rfl
  | cons kv rest ih =>
    simp only [List.map_cons, List.nodup_cons] at h
    by_cases hk : kv.1 = k
    · simp only [assocErase, if_pos hk]
      subst hk
      by_contra hc
      simp only [Bool.not_eq_false] at hc
      exact h.1 ((assocContains_iff_mem rest kv.1).mp hc)
    · simp [assocErase, hk, assocContains, ih h.2]

theorem length_assocSet_of_contains (l : List (α × β)) (k : α) (v : β)
    (h : assocContains l k = true) : (assocSet l k v).length = l.length := by
  induction l with
  | nil => simp [assocContains] at h
  | cons kv rest ih =>
    by_cases hk : kv.1 = k
    · simp [assocSet, hk]
    · simp only [assocContains, Bool.or_eq_true, decide_eq_true_eq] at h
      have h2 : assocContains rest k = true := h.resolve_left hk
      simp [assocSet, hk, ih h2]

theorem length_assocSet_of_not_contains (l : List (α × β)) (k : α) (v : β)
    (h : assocContains l k = false) : (assocSet l k v).length = l.length + 1 := by
  induction l with
  | nil => simp [assocSet]
  | cons kv rest ih =>
    simp only [assocContains, Bool.or_eq_false_iff, decide_eq_false_iff_not] at h
    simp [assocSet, h.1, ih h.2]

theorem length_assocSet_le (l : List (α × β)) (k : α) (v : β) :
    (assocSet l k v).length ≤ l.length + 1 := by
  by_cases h : assocContains l k = true
  · simp [length_assocSet_of_contains l k v h]
  · simp [length_assocSet_of_not_contains l k v (by simpa using h)]

theorem keys_assocSet_of_contains (l : List (α × β)) (k : α) (v : β)
    (h : assocContains l k = true) : (assocSet l k v).map (·.1) = l.map (·.1) := by
  induction l with
  | nil => simp [assocContains] at h
  | cons kv rest ih =>
    by_cases hk : kv.1 = k
    · simp [assocSet, hk]
    · simp only [assocContains, Bool.or_eq_true, decide_eq_true_eq] at h
      have h2 : assocContains rest k = true := h.resolve_left hk
      simp [assocSet, hk, ih h2]

theorem keys_assocSet_of_not_contains (l : List (α × β)) (k : α) (v : β)
    (h : assocContains l k = false) : (assocSet l k v).map (·.1) = l.map (·.1) ++ [k] := by
  induction l with
  | nil => simp [assocSet]
  | cons kv rest ih =>
    simp only [assocContains, Bool.or_eq_false_iff, decide_eq_false_iff_not] at h
    simp [assocSet, h.1, ih h.2]

theorem nodup_assocSet (l : List (α × β)) (k : α) (v : β)
    (h : (l.map (·.1)).Nodup) : ((assocSet l k v).map (·.1)).Nodup := by
  by_cases hc : assocContains l k = true
  · rw [keys_assocSet_of_contains l k v hc]; exact h
  · rw [keys_assocSet_of_not_contains l k v (by simpa using hc)]
    have hm : k ∉ l.map (·.1) := fun hm => hc ((assocContains_iff_mem l k).mpr hm)
    simp [List.nodup_append, h, hm]

theorem get_some_perm_cons (l : List (α × β)) (k : α) (e : β)
    (h : assocGet? l k = some e) :
    List.Perm (l.map (·.1)) (k :: (assocErase l k).map (·.1)) := by
  induction l with
  | nil => simp [assocGet?] at h
  | cons kv rest ih =>
    by_cases hk : kv.1 = k
    · simp only [assocGet?, if_pos hk] at h
      simp [assocErase, hk]
    · simp only [assocGet?, if_neg hk] at h
      have hp := ih h
      simp only [assocErase, if_neg hk, List.map_cons]
      exact (hp.cons kv.1).trans (List.Perm.swap k kv.1 _)

theorem keys_moveToEnd_perm (s : Store) (k : String) :
    List.Perm (storeKeys (moveToEnd s k)) (storeKeys s) := by
  unfold moveToEnd
  cases h : assocGet? s k with
  | none => rfl
  | some e =>
    have hp := get_some_perm_cons s k e h
    simp only [storeKeys, List.map_append, List.map_cons, List.map_nil]
    exact (List.perm_append_singleton _ _).trans hp.symm

end PyQuickCache
namespace PyQuickCache

variable {σ : Type}

/-- Store keys are distinct and the valid-keys gauge equals the physical
store size (the invariant tying `metrics.py` to the store). -/
def GaugeInv (st : EngineState σ) : Prop :=
  (storeKeys st.cache).Nodup ∧ st.metrics.currentValidKeys = (st.cache.length : Int)

/-- The policy hooks the engine fires can reorder the store but keep
exactly the same key multiset (true of LRU, FIFO and LFU). -/
def KeysPermHooks (p : EvictionPolicy σ) : Prop :=
  (∀ ps s k ps1 s1, p.onUpdate ps s k = some (ps1, s1) →
    List.Perm (storeKeys s1) (storeKeys s)) ∧
  (∀ ps s k ps1 s1, p.onAccess ps s k = some (ps1, s1) →
    List.Perm (storeKeys s1) (storeKeys s))

/-- The hit/miss/get counters agree. -/
def SameGetCounters (m m' : CacheMetricsData) : Prop :=
  m'.hits = m.hits ∧ m'.misses = m.misses ∧ m'.gets = m.gets

theorem keysPermHooks_lru : KeysPermHooks lruPolicy := by
  constructor <;> intro ps s k ps1 s1 h <;>
    · simp only [lruPolicy, Option.some.injEq, Prod.mk.injEq] at h
      rw [← h.2]
      by_cases hc : assocContains s k <;> simp [hc, keys_moveToEnd_perm]

theorem keysPermHooks_fifo : KeysPermHooks fifoPolicy := by
  constructor <;> intro ps s k ps1 s1 h <;>
    · simp only [fifoPolicy, Option.some.injEq, Prod.mk.injEq] at h
      rw [← h.2]

theorem keysPermHooks_lfu : KeysPermHooks lfuPolicy := by
  constructor <;> intro ps s k ps1 s1 h <;>
    · simp only [lfuPolicy, Option.map_eq_some'] at h
      obtain ⟨a, _, h2⟩ := h
      cases h2
      rfl

theorem checkKey_eq_none {st : EngineState σ} (now : Nat) (k : String)
    (hg : assocGet? st.cache k = none) :
    checkKeyValidityAndRemoveExpired now k st = (false, st) := by
  unfold checkKeyValidityAndRemoveExpired
  rw [hg]

theorem checkKey_eq_live {st : EngineState σ} (now : Nat) (k : String) {e : CacheEntry}
    (hg : assocGet? st.cache k = some e) (he : e.isExpired now = false) :
    checkKeyValidityAndRemoveExpired now k st = (true, st) := by
  unfold checkKeyValidityAndRemoveExpired
  rw [hg]
  simp [he]

theorem checkKey_eq_expired {st : EngineState σ} (now : Nat) (k : String) {e : CacheEntry}
    (hg : assocGet? st.cache k = some e) (he : e.isExpired now = true) :
    checkKeyValidityAndRemoveExpired now k st =
      (false,
        ⟨assocErase st.cache k,
         updateValidKeys
           (updateTotalKeys (recordExpiredRemoval st.metrics) (assocErase st.cache k).length)
           (max 0 ((updateTotalKeys (recordExpiredRemoval st.metrics)
              (assocErase st.cache k).length).currentValidKeys - 1)),
         st.policyState⟩) := by
  unfold checkKeyValidityAndRemoveExpired
  rw [hg]
  simp [he]

theorem checkKey_policyState (now : Nat) (k : String) (st : EngineState σ) :
    (checkKeyValidityAndRemoveExpired now k st).2.policyState = st.policyState := by
  cases hg : assocGet? st.cache k with
  | none => rw [checkKey_eq_none now k hg]
  | some e =>
    cases he : e.isExpired now
    · rw [checkKey_eq_live now k hg he]
    · rw [checkKey_eq_expired now k hg he]

theorem checkKey_counters (now : Nat) (k : String) (st : EngineState σ) :
    SameGetCounters st.metrics (checkKeyValidityAndRemoveExpired now k st).2.metrics := by
  unfold SameGetCounters
  cases hg : assocGet? st.cache k with
  | none => rw [checkKey_eq_none now k hg]; exact ⟨rfl, rfl, rfl⟩
  | some e =>
    cases he : e.isExpired now
    · rw [checkKey_eq_live now k hg he]; exact ⟨rfl, rfl, rfl⟩
    · rw [checkKey_eq_expired now k hg he]
      simp [recordExpiredRemoval, updateTotalKeys, updateValidKeys]

theorem checkKey_length_le (now : Nat) (k : String) (st : EngineState σ) :
    (checkKeyValidityAndRemoveExpired now k st).2.cache.length ≤ st.cache.length := by
  cases hg : assocGet? st.cache k with
  | none => rw [checkKey_eq_none now k hg]
  | some e =>
    cases he : e.isExpired now
    · rw [checkKey_eq_live now k hg he]
    · rw [checkKey_eq_expired now k hg he]
      exact length_assocErase_le _ _

theorem checkKey_gauge (now : Nat) (k : String) (st : EngineState σ)
    (hg : GaugeInv st) : GaugeInv (checkKeyValidityAndRemoveExpired now k st).2 := by
  cases hge : assocGet? st.cache k with
  | none => rw [checkKey_eq_none now k hge]; exact hg
  | some e =>
    cases he : e.isExpired now
    · rw [checkKey_eq_live now k hge he]; exact hg
    · rw [checkKey_eq_expired now k hge he]
      refine ⟨nodup_assocErase _ _ hg.1, ?_⟩
      have hlen := length_assocErase_of_get st.cache k e hge
      have hv := hg.2
      simp only [updateValidKeys, updateTotalKeys, recordExpiredRemoval]
      omega

theorem checkKey_fst_true (now : Nat) (k : String) (st : EngineState σ)
    (h : (checkKeyValidityAndRemoveExpired now k st).1 = true) :
    (checkKeyValidityAndRemoveExpired now k st).2 = st ∧
      ∃ e, assocGet? st.cache k = some e ∧ e.isExpired now = false := by
  cases hg : assocGet? st.cache k with
  | none => rw [checkKey_eq_none now k hg] at h; simp at h
  | some e =>
    cases he : e.isExpired now
    · rw [checkKey_eq_live now k hg he]
      exact ⟨rfl, e, rfl, he⟩
    · rw [checkKey_eq_expired now k hg he] at h
      simp at h

end PyQuickCache
namespace PyQuickCache

variable {σ : Type}

theorem checkKey_nodup (now : Nat) (k : String) (st : EngineState σ)
    (h : (storeKeys st.cache).Nodup) :
    (storeKeys (checkKeyValidityAndRemoveExpired now k st).2.cache).Nodup := by
  cases hg : assocGet? st.cache k with
  | none => rw [checkKey_eq_none now k hg]; exact h
  | some e =>
    cases he : e.isExpired now
    · rw [checkKey_eq_live now k hg he]; exact h
    · rw [checkKey_eq_expired now k hg he]
      exact nodup_assocErase _ _ h

theorem sweep_policyState (now : Nat) (ks : List String) (st : EngineState σ) :
    (sweep now ks st).policyState = st.policyState := by
  induction ks generalizing st with
  | nil => rfl
  | cons k ks ih =>
    rw [sweep, ih, checkKey_policyState]

theorem sweep_counters (now : Nat) (ks : List String) (st : EngineState σ) :
    SameGetCounters st.metrics (sweep now ks st).metrics := by
  induction ks generalizing st with
  | nil => exact ⟨rfl, rfl, rfl⟩
  | cons k ks ih =>
    have h1 := checkKey_counters now k st
    have h2 := ih (checkKeyValidityAndRemoveExpired now k st).2
    rw [sweep]
    exact ⟨h2.1.trans h1.1, h2.2.1.trans h1.2.1, h2.2.2.trans h1.2.2⟩

theorem sweep_length_le (now : Nat) (ks : List String) (st : EngineState σ) :
    (sweep now ks st).cache.length ≤ st.cache.length := by
  induction ks generalizing st with
  | nil => exact le_refl _
  | cons k ks ih =>
    rw [sweep]
    exact (ih _).trans (checkKey_length_le now k st)

theorem sweep_nodup (now : Nat) (ks : List String) (st : EngineState σ)
    (h : (storeKeys st.cache).Nodup) : (storeKeys (sweep now ks st).cache).Nodup := by
  induction ks generalizing st with
  | nil => exact h
  | cons k ks ih =>
    rw [sweep]
    exact ih _ (checkKey_nodup now k st h)

theorem sweep_gauge (now : Nat) (ks : List String) (st : EngineState σ)
    (h : GaugeInv st) : GaugeInv (sweep now ks st) := by
  induction ks generalizing st with
  | nil => exact h
  | cons k ks ih =>
    rw [sweep]
    exact ih _ (checkKey_gauge now k st h)

theorem cleanup_policyState (now : Nat) (st : EngineState σ) :
    (cleanup now st).policyState = st.policyState := by
  unfold cleanup
  exact sweep_policyState now _ st

theorem cleanup_counters (now : Nat) (st : EngineState σ) :
    SameGetCounters st.metrics (cleanup now st).metrics := by
  unfold cleanup
  have h := sweep_counters now (storeKeys st.cache) st
  simp only [updateValidKeys, updateTotalKeys]
  exact h

theorem cleanup_length_le (now : Nat) (st : EngineState σ) :
    (cleanup now st).cache.length ≤ st.cache.length := by
  unfold cleanup
  exact sweep_length_le now _ st

theorem cleanup_gauge (now : Nat) (st : EngineState σ)
    (h : (storeKeys st.cache).Nodup) : GaugeInv (cleanup now st) := by
  unfold cleanup GaugeInv
  refine ⟨sweep_nodup now _ st h, ?_⟩
  simp [updateValidKeys, updateTotalKeys]

theorem evictLoop_some_lt (p : EvictionPolicy σ) (cap : Nat) :
    ∀ (fuel : Nat) (st st' : EngineState σ), evictLoop p cap fuel st = some st' →
      st'.cache.length < cap := by
  intro fuel
  induction fuel with
  | zero =>
    intro st st' h
    unfold evictLoop at h
    split at h
    · exact absurd h (by simp)
    · cases h; omega
  | succ fuel ih =>
    intro st st' h
    unfold evictLoop at h
    split at h
    · split at h
      · exact absurd h (by simp)
      · split at h
        · simp only [] at h
          exact ih _ _ h
        · exact absurd h (by simp)
    · cases h; omega

theorem evictLoop_policyState (p : EvictionPolicy σ) (cap : Nat) :
    ∀ (fuel : Nat) (st st' : EngineState σ), evictLoop p cap fuel st = some st' →
      st'.policyState = st.policyState := by
  intro fuel
  induction fuel with
  | zero =>
    intro st st' h
    unfold evictLoop at h
    split at h
    · exact absurd h (by simp)
    · cases h; rfl
  | succ fuel ih =>
    intro st st' h
    unfold evictLoop at h
    split at h
    · split at h
      · exact absurd h (by simp)
      · split at h
        · simp only [] at h
          have h2 := ih _ _ h
          exact h2
        · exact absurd h (by simp)
    · cases h; rfl

theorem evictLoop_counters (p : EvictionPolicy σ) (cap : Nat) :
    ∀ (fuel : Nat) (st st' : EngineState σ), evictLoop p cap fuel st = some st' →
      SameGetCounters st.metrics st'.metrics := by
  intro fuel
  induction fuel with
  | zero =>
    intro st st' h
    unfold evictLoop at h
    split at h
    · exact absurd h (by simp)
    · cases h; exact ⟨rfl, rfl, rfl⟩
  | succ fuel ih =>
    intro st st' h
    unfold evictLoop at h
    split at h
    · split at h
      · exact absurd h (by simp)
      · split at h
        · simp only [] at h
          have h2 := ih _ _ h
          simp only [updateValidKeys, updateTotalKeys, recordEviction, SameGetCounters] at h2 ⊢
          exact h2
        · exact absurd h (by simp)
    · cases h; exact ⟨rfl, rfl, rfl⟩

theorem evictLoop_gauge (p : EvictionPolicy σ) (cap : Nat) :
    ∀ (fuel : Nat) (st st' : EngineState σ), GaugeInv st → evictLoop p cap fuel st = some st' →
      GaugeInv st' := by
  intro fuel
  induction fuel with
  | zero =>
    intro st st' hg h
    unfold evictLoop at h
    split at h
    · exact absurd h (by simp)
    · cases h; exact hg
  | succ fuel ih =>
    intro st st' hg h
    unfold evictLoop at h
    split at h
    · split at h
      · exact absurd h (by simp)
      · split at h
        · simp only [] at h
          refine ih _ _ ?_ h
          refine ⟨nodup_assocErase _ _ hg.1, ?_⟩
          simp [updateValidKeys, updateTotalKeys, recordEviction]
        · exact absurd h (by simp)
    · cases h; exact hg

theorem ensureCapacity_some_lt {p : EvictionPolicy σ} {cap now : Nat}
    {st st' : EngineState σ} (h : ensureCapacity p cap now st = some st') :
    st'.cache.length < cap :=
  evictLoop_some_lt p cap _ _ _ h

theorem ensureCapacity_policyState {p : EvictionPolicy σ} {cap now : Nat}
    {st st' : EngineState σ} (h : ensureCapacity p cap now st = some st') :
    st'.policyState = st.policyState := by
  unfold ensureCapacity at h
  exact (evictLoop_policyState p cap _ _ _ h).trans (cleanup_policyState now st)

theorem ensureCapacity_counters {p : EvictionPolicy σ} {cap now : Nat}
    {st st' : EngineState σ} (h : ensureCapacity p cap now st = some st') :
    SameGetCounters st.metrics st'.metrics := by
  unfold ensureCapacity at h
  have h1 := cleanup_counters (σ := σ) now st
  have h2 := evictLoop_counters p cap _ _ _ h
  exact ⟨h2.1.trans h1.1, h2.2.1.trans h1.2.1, h2.2.2.trans h1.2.2⟩

theorem ensureCapacity_gauge {p : EvictionPolicy σ} {cap now : Nat}
    {st st' : EngineState σ} (hn : (storeKeys st.cache).Nodup)
    (h : ensureCapacity p cap now st = some st') : GaugeInv st' := by
  unfold ensureCapacity at h
  exact evictLoop_gauge p cap _ _ _ (cleanup_gauge now st hn) h

end PyQuickCache
namespace PyQuickCache

variable {σ : Type}

theorem checkKey_keys_sublist (now : Nat) (k : String) (st : EngineState σ) :
    List.Sublist (storeKeys (checkKeyValidityAndRemoveExpired now k st).2.cache)
      (storeKeys st.cache) := by
  cases hg : assocGet? st.cache k with
  | none => rw [checkKey_eq_none now k hg]
  | some e =>
    cases he : e.isExpired now
    · rw [checkKey_eq_live now k hg he]
    · rw [checkKey_eq_expired now k hg he]
      exact keys_assocErase_sublist _ _

theorem sweep_keys_sublist (now : Nat) (ks : List String) (st : EngineState σ) :
    List.Sublist (storeKeys (sweep now ks st).cache) (storeKeys st.cache) := by
  induction ks generalizing st with
  | nil => exact List.Sublist.refl _
  | cons k ks ih =>
    rw [sweep]
    exact (ih _).trans (checkKey_keys_sublist now k st)

theorem cleanup_keys_sublist (now : Nat) (st : EngineState σ) :
    List.Sublist (storeKeys (cleanup now st).cache) (storeKeys st.cache) := by
  unfold cleanup
  exact sweep_keys_sublist now _ st

theorem evictLoop_keys_sublist (p : EvictionPolicy σ) (cap : Nat) :
    ∀ (fuel : Nat) (st st' : EngineState σ), evictLoop p cap fuel st = some st' →
      List.Sublist (storeKeys st'.cache) (storeKeys st.cache) := by
  intro fuel
  induction fuel with
  | zero =>
    intro st st' h
    unfold evictLoop at h
    split at h
    · exact absurd h (by simp)
    · cases h; exact List.Sublist.refl _
  | succ fuel ih =>
    intro st st' h
    unfold evictLoop at h
    split at h
    · split at h
      · exact absurd h (by simp)
      · split at h
        · simp only [] at h
          exact (ih _ _ h).trans (keys_assocErase_sublist _ _)
        · exact absurd h (by simp)
    · cases h; exact List.Sublist.refl _

theorem ensureCapacity_keys_sublist {p : EvictionPolicy σ} {cap now : Nat}
    {st st' : EngineState σ} (h : ensureCapacity p cap now st = some st') :
    List.Sublist (storeKeys st'.cache) (storeKeys st.cache) := by
  unfold ensureCapacity at h
  exact (evictLoop_keys_sublist p cap _ _ _ h).trans (cleanup_keys_sublist now st)

theorem not_contains_of_sublist {l1 l2 : List String} (hs : List.Sublist l1 l2)
    {s : Store} {t : Store} (hk1 : storeKeys s = l2) (hk2 : storeKeys t = l1)
    {k : String} (h : assocContains s k = false) : assocContains t k = false := by
  by_contra hc
  simp only [Bool.not_eq_false] at hc
  have hm : k ∈ l1 := hk2 ▸ (assocContains_iff_mem t k).mp hc
  have hm2 : k ∈ storeKeys s := hk1 ▸ hs.mem hm
  rw [(assocContains_iff_mem s k).mpr hm2] at h
  exact absurd h (by simp)

theorem addInsert_counters {p : EvictionPolicy σ} {cap now : Nat} {key : String}
    {value : Nat} {ttlSec : Option TTLArg} {ttl : Int} {st1 : EngineState σ} {r st'}
    (h : addInsert p cap now key value ttlSec ttl st1 = some (r, st')) :
    SameGetCounters st1.metrics st'.metrics := by
  unfold addInsert at h
  split at h
  · exact absurd h (by simp)
  · rename_i st2 hst2
    simp only [] at h
    split at h
    · exact absurd h (by simp)
    · cases h
      have h2 : SameGetCounters st1.metrics st2.metrics := by
        split at hst2
        · exact ensureCapacity_counters hst2
        · cases hst2; exact ⟨rfl, rfl, rfl⟩
      simp only [SameGetCounters, updateValidKeys, updateTotalKeys, recordSet] at h2 ⊢
      exact h2

theorem addInsert_cap {p : EvictionPolicy σ} (hp : KeysPermHooks p) {cap now : Nat}
    {key : String} {value : Nat} {ttlSec : Option TTLArg} {ttl : Int}
    {st1 : EngineState σ} {r st'}
    (h : addInsert p cap now key value ttlSec ttl st1 = some (r, st')) :
    st'.cache.length ≤ cap := by
  unfold addInsert at h
  split at h
  · exact absurd h (by simp)
  · rename_i st2 hst2
    simp only [] at h
    split at h
    · exact absurd h (by simp)
    · rename_i ps1cache2 ps1 cache2 hhook
      cases h
      have hlt : st2.cache.length < cap := by
        split at hst2
        · exact ensureCapacity_some_lt hst2
        · rename_i hc
          cases hst2
          omega
      have hlen2 := length_assocSet_le st2.cache key
        (⟨value, now + ttl.toNat, ttlSec⟩ : CacheEntry)
      have hperm := hp.1 _ _ _ _ _ hhook
      have : cache2.length = (assocSet st2.cache key ⟨value, now + ttl.toNat, ttlSec⟩).length := by
        have := hperm.length_eq
        simpa [storeKeys] using this
      simp only [EngineState.cache]
      omega

end PyQuickCache

namespace PyQuickCache

variable {σ : Type}

theorem addInsert_gauge {p : EvictionPolicy σ} (hp : KeysPermHooks p) {cap now : Nat}
    {key : String} {value : Nat} {ttlSec : Option TTLArg} {ttl : Int}
    {st1 : EngineState σ} {r st'}
    (hg : GaugeInv st1) (hk : assocContains st1.cache key = false)
    (h : addInsert p cap now key value ttlSec ttl st1 = some (r, st')) :
    GaugeInv st' := by
  unfold addInsert at h
  split at h
  · exact absurd h (by simp)
  · rename_i st2 hst2
    simp only [] at h
    split at h
    · exact absurd h (by simp)
    · rename_i ps1cache2 ps1 cache2 hhook
      cases h
      have hg2 : GaugeInv st2 := by
        split at hst2
        · exact ensureCapacity_gauge hg.1 hst2
        · cases hst2; exact hg
      have hk2 : assocContains st2.cache key = false := by
        split at hst2
        · exact not_contains_of_sublist (ensureCapacity_keys_sublist hst2) rfl rfl hk
        · cases hst2; exact hk
      have hkeys := keys_assocSet_of_not_contains st2.cache key
        (⟨value, now + ttl.toNat, ttlSec⟩ : CacheEntry) hk2
      have hlen := length_assocSet_of_not_contains st2.cache key
        (⟨value, now + ttl.toNat, ttlSec⟩ : CacheEntry) hk2
      have hperm := hp.1 _ _ _ _ _ hhook
      constructor
      · refine hperm.nodup_iff.mpr ?_
        show ((assocSet st2.cache key _).map (·.1)).Nodup
        exact nodup_assocSet _ _ _ hg2.1
      · have hlc : cache2.length = (assocSet st2.cache key
            (⟨value, now + ttl.toNat, ttlSec⟩ : CacheEntry)).length := by
          have := hperm.length_eq
          simpa [storeKeys] using this
        have hv := hg2.2
        simp only [updateValidKeys, updateTotalKeys, recordSet, EngineState.cache,
          EngineState.metrics]
        omega

end PyQuickCache
namespace PyQuickCache

variable {σ : Type}

theorem checkKey_fst_false_cache (now : Nat) (k : String) (st : EngineState σ)
    (hc : assocContains st.cache k = true)
    (h : (checkKeyValidityAndRemoveExpired now k st).1 = false) :
    (checkKeyValidityAndRemoveExpired now k st).2.cache = assocErase st.cache k := by
  cases hg : assocGet? st.cache k with
  | none =>
    have := assocGet_isSome_eq st.cache k
    rw [hg, hc] at this
    exact absurd this (by simp)
  | some e =>
    cases he : e.isExpired now
    · rw [checkKey_eq_live now k hg he] at h
      simp at h
    · rw [checkKey_eq_expired now k hg he]

theorem add_counters {p : EvictionPolicy σ} {cap now : Nat} {key : String}
    {value : Nat} {ttlSec : Option TTLArg} {st : EngineState σ} {r st'}
    (h : add p cap now key value ttlSec st = some (r, st')) :
    SameGetCounters st.metrics st'.metrics := by
  unfold add at h
  split at h
  · cases h; exact ⟨rfl, rfl, rfl⟩
  · split at h
    · split at h
      · rename_i st1 heq
        cases h
        have hc := checkKey_counters now key st
        rw [heq] at hc
        simpa [SameGetCounters, recordFailedOp] using hc
      · rename_i st1 heq
        have hc := checkKey_counters now key st
        rw [heq] at hc
        have h2 := addInsert_counters h
        exact ⟨h2.1.trans hc.1, h2.2.1.trans hc.2.1, h2.2.2.trans hc.2.2⟩
    · exact addInsert_counters h

theorem add_cap {p : EvictionPolicy σ} (hp : KeysPermHooks p) {cap now : Nat}
    {key : String} {value : Nat} {ttlSec : Option TTLArg} {st : EngineState σ} {r st'}
    (hle : st.cache.length ≤ cap)
    (h : add p cap now key value ttlSec st = some (r, st')) :
    st'.cache.length ≤ cap := by
  unfold add at h
  split at h
  · cases h; exact hle
  · split at h
    · split at h
      · rename_i st1 heq
        cases h
        have h1 : (checkKeyValidityAndRemoveExpired now key st).1 = true := by
          rw [heq]
        have h2 := (checkKey_fst_true now key st h1).1
        rw [heq] at h2
        simp only [EngineState.cache]
        rw [show st1 = st from h2]
        exact hle
      · exact addInsert_cap hp h
    · exact addInsert_cap hp h

theorem add_gauge {p : EvictionPolicy σ} (hp : KeysPermHooks p) {cap now : Nat}
    {key : String} {value : Nat} {ttlSec : Option TTLArg} {st : EngineState σ} {r st'}
    (hg : GaugeInv st)
    (h : add p cap now key value ttlSec st = some (r, st')) :
    GaugeInv st' := by
  unfold add at h
  split at h
  · cases h; exact hg
  · split at h
    · rename_i hcont
      split at h
      · rename_i st1 heq
        cases h
        have h1 : (checkKeyValidityAndRemoveExpired now key st).1 = true := by rw [heq]
        have h2 := (checkKey_fst_true now key st h1).1
        rw [heq] at h2
        rw [show st1 = st from h2]
        exact ⟨hg.1, by simpa [recordFailedOp] using hg.2⟩
      · rename_i st1 heq
        have hg1 : GaugeInv st1 := by
          have := checkKey_gauge now key st hg
          rw [heq] at this
          exact this
        have hf : (checkKeyValidityAndRemoveExpired now key st).1 = false := by rw [heq]
        have hcache : st1.cache = assocErase st.cache key := by
          have := checkKey_fst_false_cache now key st hcont hf
          rw [heq] at this
          exact this
        have hk1 : assocContains st1.cache key = false := by
          rw [hcache]
          exact not_contains_assocErase_of_nodup _ _ hg.1
        exact addInsert_gauge hp hg1 hk1 h
    · rename_i hcont
      have hk1 : assocContains st.cache key = false := by
        simpa using hcont
      exact addInsert_gauge hp hg hk1 h

end PyQuickCache
namespace PyQuickCache

variable {σ : Type}

theorem update_counters {p : EvictionPolicy σ} {now : Nat} {key : String}
    {value : Nat} {ttlSec : TTLArg} {st : EngineState σ} {r st'}
    (h : update p now key value ttlSec st = some (r, st')) :
    SameGetCounters st.metrics st'.metrics := by
  unfold update at h
  split at h
  · cases h; exact ⟨rfl, rfl, rfl⟩
  · split at h
    · cases h; exact ⟨rfl, rfl, rfl⟩
    · split at h
      · cases h; exact ⟨rfl, rfl, rfl⟩
      · split at h
        · rename_i st1 heq
          cases h
          have hc := checkKey_counters now key st
          rw [heq] at hc
          simpa [SameGetCounters, recordFailedOp] using hc
        · rename_i st1 heq
          simp only [] at h
          split at h
          · exact absurd h (by simp)
          · rename_i ps1cache2 ps1 cache2 hhook
            cases h
            have hc := checkKey_counters now key st
            rw [heq] at hc
            simpa [SameGetCounters, updateValidKeys, updateTotalKeys, recordSet] using hc

theorem update_cap {p : EvictionPolicy σ} (hp : KeysPermHooks p) {now : Nat}
    {key : String} {value : Nat} {ttlSec : TTLArg} {st : EngineState σ} {r st'} {cap : Nat}
    (hle : st.cache.length ≤ cap)
    (h : update p now key value ttlSec st = some (r, st')) :
    st'.cache.length ≤ cap := by
  unfold update at h
  split at h
  · cases h; exact hle
  · rename_i ttlv hpy
    split at h
    · cases h; exact hle
    · split at h
      · cases h; exact hle
      · split at h
        · rename_i st1 heq
          cases h
          have hle1 : st1.cache.length ≤ st.cache.length := by
            have := checkKey_length_le now key st
            rw [heq] at this
            exact this
          simp only [EngineState.cache]
          omega
        · rename_i st1 heq
          simp only [] at h
          split at h
          · exact absurd h (by simp)
          · rename_i ps1cache2 ps1 cache2 hhook
            cases h
            have h1 : (checkKeyValidityAndRemoveExpired now key st).1 = true := by rw [heq]
            have h2 := checkKey_fst_true now key st h1
            have hst1 : st1 = st := by rw [heq] at h2; exact h2.1
            obtain ⟨-, e, hge, -⟩ := h2
            have hcont : assocContains st1.cache key = true := by
              rw [hst1]
              have := assocGet_isSome_eq st.cache key
              rw [hge] at this
              simpa using this.symm
            have hlen := length_assocSet_of_contains st1.cache key
              (⟨value, now + ttlv.toNat, some ttlSec⟩ : CacheEntry) hcont
            have hperm := hp.1 _ _ _ _ _ hhook
            have hlc := hperm.length_eq
            simp only [storeKeys, List.length_map] at hlc
            have hl1 : st1.cache.length = st.cache.length := by rw [hst1]
            simp only [EngineState.cache]
            omega

end PyQuickCache

namespace PyQuickCache

variable {σ : Type}

theorem update_gauge {p : EvictionPolicy σ} (hp : KeysPermHooks p) {now : Nat}
    {key : String} {value : Nat} {ttlSec : TTLArg} {st : EngineState σ} {r st'}
    (hg : GaugeInv st)
    (h : update p now key value ttlSec st = some (r, st')) :
    GaugeInv st' := by
  unfold update at h
  split at h
  · cases h; exact hg
  · rename_i ttlv hpy
    split at h
    · cases h; exact hg
    · split at h
      · cases h
        exact ⟨hg.1, by simpa [recordFailedOp] using hg.2⟩
      · split at h
        · rename_i st1 heq
          cases h
          have hg1 : GaugeInv st1 := by
            have := checkKey_gauge now key st hg
            rw [heq] at this
            exact this
          exact ⟨hg1.1, by simpa [recordFailedOp] using hg1.2⟩
        · rename_i st1 heq
          simp only [] at h
          split at h
          · exact absurd h (by simp)
          · rename_i ps1cache2 ps1 cache2 hhook
            cases h
            have h1 : (checkKeyValidityAndRemoveExpired now key st).1 = true := by rw [heq]
            have h2 := checkKey_fst_true now key st h1
            have hst1 : st1 = st := by rw [heq] at h2; exact h2.1
            obtain ⟨-, e, hge, -⟩ := h2
            have hcont : assocContains st1.cache key = true := by
              rw [hst1]
              have := assocGet_isSome_eq st.cache key
              rw [hge] at this
              simpa using this.symm
            have hkeys := keys_assocSet_of_contains st1.cache key
              (⟨value, now + ttlv.toNat, some ttlSec⟩ : CacheEntry) hcont
            have hperm := hp.1 _ _ _ _ _ hhook
            constructor
            · refine hperm.nodup_iff.mpr ?_
              show ((assocSet st1.cache key _).map (·.1)).Nodup
              rw [hkeys, hst1]
              exact hg.1
            · have hlc := hperm.length_eq
              simp only [storeKeys, List.length_map] at hlc
              have hlen := length_assocSet_of_contains st1.cache key
                (⟨value, now + ttlv.toNat, some ttlSec⟩ : CacheEntry) hcont
              have hl1 : st1.cache.length = st.cache.length := by rw [hst1]
              have hm1 : st1.metrics.currentValidKeys = st.metrics.currentValidKeys := by
                rw [hst1]
              have hv := hg.2
              simp only [updateValidKeys, updateTotalKeys, recordSet, EngineState.cache,
                EngineState.metrics]
              omega

theorem get_counters {p : EvictionPolicy σ} {now : Nat} {key : String}
    {st : EngineState σ} {r st'}
    (h : get p now key st = some (r, st')) :
    st'.metrics.gets = st.metrics.gets + 1 ∧
      st'.metrics.hits + st'.metrics.misses = st.metrics.hits + st.metrics.misses + 1 := by
  unfold get at h
  simp only [] at h
  split at h
  · cases h
    dsimp only [recordMiss, recordGet]
    omega
  · split at h
    · rename_i st1 heq
      cases h
      have hc := checkKey_counters now key ⟨st.cache, recordGet st.metrics, st.policyState⟩
      rw [heq] at hc
      obtain ⟨h1, h2, h3⟩ := hc
      simp only [recordGet, EngineState.metrics] at h1 h2 h3
      simp only [recordMiss, EngineState.metrics]
      omega
    · rename_i st1 heq
      split at h
      · exact absurd h (by simp)
      · rename_i ps1cache1 ps1 cache1 hhook
        split at h
        · exact absurd h (by simp)
        · rename_i e hge
          cases h
          have h1 : (checkKeyValidityAndRemoveExpired now key
              (⟨st.cache, recordGet st.metrics, st.policyState⟩ : EngineState σ)).1 = true := by
            rw [heq]
          have h2 := (checkKey_fst_true now key _ h1).1
          rw [heq] at h2
          rw [show st1 = (⟨st.cache, recordGet st.metrics, st.policyState⟩ : EngineState σ)
            from h2]
          dsimp only [recordHit, recordGet]
          omega

theorem get_cap {p : EvictionPolicy σ} (hp : KeysPermHooks p) {now : Nat}
    {key : String} {st : EngineState σ} {r st'} {cap : Nat}
    (hle : st.cache.length ≤ cap)
    (h : get p now key st = some (r, st')) :
    st'.cache.length ≤ cap := by
  unfold get at h
  simp only [] at h
  split at h
  · cases h; exact hle
  · split at h
    · rename_i st1 heq
      cases h
      have hl := checkKey_length_le now key
        (⟨st.cache, recordGet st.metrics, st.policyState⟩ : EngineState σ)
      rw [heq] at hl
      simp only [EngineState.cache] at hl ⊢
      omega
    · rename_i st1 heq
      split at h
      · exact absurd h (by simp)
      · rename_i ps1cache1 ps1 cache1 hhook
        split at h
        · exact absurd h (by simp)
        · rename_i e hge
          cases h
          have h1 : (checkKeyValidityAndRemoveExpired now key
              (⟨st.cache, recordGet st.metrics, st.policyState⟩ : EngineState σ)).1 = true := by
            rw [heq]
          have h2 := (checkKey_fst_true now key _ h1).1
          rw [heq] at h2
          have hst1 : st1 = (⟨st.cache, recordGet st.metrics, st.policyState⟩ :
            EngineState σ) := h2
          have hperm := hp.2 _ _ _ _ _ hhook
          have hlc := hperm.length_eq
          simp only [storeKeys, List.length_map] at hlc
          have : st1.cache.length = st.cache.length := by rw [hst1]
          simp only [EngineState.cache]
          omega

theorem get_gauge {p : EvictionPolicy σ} (hp : KeysPermHooks p) {now : Nat}
    {key : String} {st : EngineState σ} {r st'}
    (hg : GaugeInv st)
    (h : get p now key st = some (r, st')) :
    GaugeInv st' := by
  unfold get at h
  simp only [] at h
  split at h
  · cases h
    exact ⟨hg.1, by simpa [recordMiss, recordGet] using hg.2⟩
  · split at h
    · rename_i st1 heq
      cases h
      have hg1 : GaugeInv st1 := by
        have := checkKey_gauge now key
          (⟨st.cache, recordGet st.metrics, st.policyState⟩ : EngineState σ)
          ⟨hg.1, by simpa [recordGet] using hg.2⟩
        rw [heq] at this
        exact this
      exact ⟨hg1.1, by simpa [recordMiss] using hg1.2⟩
    · rename_i st1 heq
      split at h
      · exact absurd h (by simp)
      · rename_i ps1cache1 ps1 cache1 hhook
        split at h
        · exact absurd h (by simp)
        · rename_i e hge
          cases h
          have h1 : (checkKeyValidityAndRemoveExpired now key
              (⟨st.cache, recordGet st.metrics, st.policyState⟩ : EngineState σ)).1 = true := by
            rw [heq]
          have h2 := (checkKey_fst_true now key _ h1).1
          rw [heq] at h2
          have hst1 : st1 = (⟨st.cache, recordGet st.metrics, st.policyState⟩ :
            EngineState σ) := h2
          have hperm := hp.2 _ _ _ _ _ hhook
          constructor
          · refine hperm.nodup_iff.mpr ?_
            show (st1.cache.map (·.1)).Nodup
            rw [hst1]
            exact hg.1
          · have hlc := hperm.length_eq
            simp only [storeKeys, List.length_map] at hlc
            have hl1 : st1.cache.length = st.cache.length := by rw [hst1]
            have hm1 : st1.metrics.currentValidKeys = st.metrics.currentValidKeys := by
              rw [hst1]
              simp [recordGet]
            have hv := hg.2
            simp only [recordHit, EngineState.cache, EngineState.metrics]
            omega

theorem delete_counters {now : Nat} {key : String} {st : EngineState σ} {r st'}
    (h : delete now key st = some (r, st')) :
    SameGetCounters st.metrics st'.metrics := by
  unfold delete at h
  split at h
  · cases h; exact ⟨rfl, rfl, rfl⟩
  · split at h
    · rename_i st1 heq
      cases h
      have hc := checkKey_counters now key st
      rw [heq] at hc
      exact hc
    · rename_i st1 heq
      cases h
      have hc := checkKey_counters now key st
      rw [heq] at hc
      simpa [SameGetCounters, updateValidKeys, updateTotalKeys, recordManualDeletion] using hc

theorem delete_cap {now : Nat} {key : String} {st : EngineState σ} {r st'} {cap : Nat}
    (hle : st.cache.length ≤ cap)
    (h : delete now key st = some (r, st')) :
    st'.cache.length ≤ cap := by
  unfold delete at h
  split at h
  · cases h; exact hle
  · split at h
    · rename_i st1 heq
      cases h
      have hl := checkKey_length_le now key st
      rw [heq] at hl
      simp only [EngineState.cache] at hl ⊢
      omega
    · rename_i st1 heq
      cases h
      have hl := checkKey_length_le now key st
      rw [heq] at hl
      have hl2 := length_assocErase_le st1.cache key
      simp only [EngineState.cache] at hl ⊢
      omega

theorem delete_gauge {now : Nat} {key : String} {st : EngineState σ} {r st'}
    (hg : GaugeInv st)
    (h : delete now key st = some (r, st')) :
    GaugeInv st' := by
  unfold delete at h
  split at h
  · cases h; exact hg
  · split at h
    · rename_i st1 heq
      cases h
      have := checkKey_gauge now key st hg
      rw [heq] at this
      exact this
    · rename_i st1 heq
      cases h
      have h1 : (checkKeyValidityAndRemoveExpired now key st).1 = true := by rw [heq]
      have h2 := checkKey_fst_true now key st h1
      have hst1 : st1 = st := by rw [heq] at h2; exact h2.1
      obtain ⟨-, e, hge, -⟩ := h2
      have hge1 : assocGet? st1.cache key = some e := by rw [hst1]; exact hge
      have hlen := length_assocErase_of_get st1.cache key e hge1
      constructor
      · exact nodup_assocErase _ _ (hst1 ▸ hg.1)
      · have hv : st1.metrics.currentValidKeys = (st1.cache.length : Int) := by
          rw [hst1]; exact hg.2
        simp only [updateValidKeys, updateTotalKeys, recordManualDeletion,
          EngineState.cache, EngineState.metrics]
        omega

end PyQuickCache
namespace PyQuickCache

variable {σ : Type}

theorem reach_gauge {p : EvictionPolicy σ} {cap : Nat} {ps0 : σ} {st : EngineState σ}
    (hp : KeysPermHooks p) (h : Reach p cap ps0 st) : GaugeInv st := by
  induction h with
  | init => exact ⟨by simp [initState, storeKeys], rfl⟩
  | addStep hr hs ih => exact add_gauge hp ih hs
  | updateStep hr hs ih => exact update_gauge hp ih hs
  | getStep hr hs ih => exact get_gauge hp ih hs
  | deleteStep hr hs ih => exact delete_gauge ih hs
  | cleanupStep hr ih => exact cleanup_gauge _ _ ih.1

theorem reach_cap {p : EvictionPolicy σ} {cap : Nat} {ps0 : σ} {st : EngineState σ}
    (hp : KeysPermHooks p) (h : Reach p cap ps0 st) : st.cache.length ≤ cap := by
  induction h with
  | init => simp [initState]
  | addStep hr hs ih => exact add_cap hp ih hs
  | updateStep hr hs ih => exact update_cap hp ih hs
  | getStep hr hs ih => exact get_cap hp ih hs
  | deleteStep hr hs ih => exact delete_cap ih hs
  | cleanupStep hr ih => exact (cleanup_length_le _ _).trans ih

theorem reach_hit_miss_get {p : EvictionPolicy σ} {cap : Nat} {ps0 : σ} {st : EngineState σ}
    (h : Reach p cap ps0 st) :
    st.metrics.hits + st.metrics.misses = st.metrics.gets := by
  induction h with
  | init => rfl
  | addStep hr hs ih =>
    obtain ⟨h1, h2, h3⟩ := add_counters hs
    omega
  | updateStep hr hs ih =>
    obtain ⟨h1, h2, h3⟩ := update_counters hs
    omega
  | getStep hr hs ih =>
    obtain ⟨h1, h2⟩ := get_counters hs
    omega
  | deleteStep hr hs ih =>
    obtain ⟨h1, h2, h3⟩ := delete_counters hs
    omega
  | @cleanupStep st1 now hr ih =>
    obtain ⟨h1, h2, h3⟩ := cleanup_counters now st1
    omega

end PyQuickCache
namespace PyQuickCache

variable {σ : Type}

theorem checkKey_zero (k : String) (st : EngineState σ) :
    checkKeyValidityAndRemoveExpired 0 k st = ((assocGet? st.cache k).isSome, st) := by
  cases hg : assocGet? st.cache k with
  | none => rw [checkKey_eq_none 0 k hg]; simp
  | some e =>
    rw [checkKey_eq_live 0 k hg (by simp [CacheEntry.isExpired])]
    simp

theorem sweep_zero (ks : List String) (st : EngineState σ) : sweep 0 ks st = st := by
  induction ks with
  | nil => rfl
  | cons k ks ih =>
    rw [sweep, checkKey_zero]
    exact ih

theorem cleanup_zero (st : EngineState σ) :
    cleanup 0 st =
      ⟨st.cache,
       updateValidKeys (updateTotalKeys st.metrics st.cache.length) (st.cache.length : Int),
       st.policyState⟩ := by
  unfold cleanup
  rw [sweep_zero]

/-- C2: with the LFU policy, the very first `add` does not complete: the
engine's add path fires the policy's `on_update` hook (never `on_add`), and
LFU's `on_update` (`_touch`) reads `self.freq[key]` for a key that was never
seated, raising `KeyError`.  The claimed scenario (capacity 2: add A, add B,
get A, get A, add C) therefore crashes at `add("A", ...)` instead of
completing and evicting B. -/
theorem lfu_add_first_key_crashes :
    add lfuPolicy 2 0 "A" 1 none (initState lfuInit) = none := by
  rfl

/-- C6: under LRU with capacity 3 and nothing expiring (all calls at instant
0, default ttl 5), add A, B, C, D completes successfully and evicts exactly A
(final keys B, C, D with exactly one eviction); with a `get("A")` between
add C and add D, add D instead evicts exactly B (final keys C, A, D, one
eviction). -/
theorem lru_eviction_scenarios :
    ((runOpsOk lruPolicy 3 0
        [.addOp "A" 1 none, .addOp "B" 2 none, .addOp "C" 3 none, .addOp "D" 4 none]
        (initState ())).map
      (fun st => (storeKeys st.cache, st.metrics.evictions)) = some (["B", "C", "D"], 1)) ∧
    ((runOpsOk lruPolicy 3 0
        [.addOp "A" 1 none, .addOp "B" 2 none, .addOp "C" 3 none, .getOp "A",
          .addOp "D" 4 none]
        (initState ())).map
      (fun st => (storeKeys st.cache, st.metrics.evictions)) = some (["C", "A", "D"], 1)) := by
  exact ⟨rfl, rfl⟩

end PyQuickCache
namespace PyQuickCache

/-- C1: for every engine whose policy hooks only reorder the store (as LRU,
FIFO and LFU do) and any finite sequence of completed add/update/get/delete/
cleanup calls from an empty store, `size()` is at most the configured
capacity when each call returns; moreover the add path's eviction loop
(`_ensure_capacity`), whenever it completes, leaves the size strictly below
capacity before the new entry is inserted. -/
theorem capacity_invariant {σ : Type} (p : EvictionPolicy σ) (cap : Nat) (ps0 : σ)
    (st : EngineState σ) (hp : KeysPermHooks p) (_hcap : 1 ≤ cap)
    (h : Reach p cap ps0 st) :
    st.cache.length ≤ cap ∧
      ∀ (now : Nat) (st1 st2 : EngineState σ),
        ensureCapacity p cap now st1 = some st2 → st2.cache.length < cap :=
  ⟨reach_cap hp h, fun _ _ _ hs => ensureCapacity_some_lt hs⟩

theorem capacity_invariant_witness :
    KeysPermHooks lruPolicy ∧ 1 ≤ 2 ∧
      ((initState (() : Unit)).cache.length ≤ 2 ∧
        ∀ (now : Nat) (st1 st2 : EngineState Unit),
          ensureCapacity lruPolicy 2 now st1 = some st2 → st2.cache.length < 2) :=
  ⟨keysPermHooks_lru, by decide,
    capacity_invariant lruPolicy 2 () (initState ()) keysPermHooks_lru (by decide) Reach.init⟩

/-- C10: after any finite sequence of completed engine calls from a fresh
engine, the `current_valid_keys` gauge is non-negative (in fact it always
equals the physical store size: the clamped lazy-expiry decrement and the
unclamped decrement in `delete` both act on a gauge that is at least 1 at
that point). -/
theorem valid_keys_gauge_nonneg {σ : Type} (p : EvictionPolicy σ) (cap : Nat) (ps0 : σ)
    (st : EngineState σ) (hp : KeysPermHooks p) (h : Reach p cap ps0 st) :
    0 ≤ st.metrics.currentValidKeys := by
  rw [(reach_gauge hp h).2]
  exact Int.natCast_nonneg _

theorem valid_keys_gauge_nonneg_witness :
    KeysPermHooks lruPolicy ∧ 0 ≤ (initState (() : Unit)).metrics.currentValidKeys :=
  ⟨keysPermHooks_lru,
    valid_keys_gauge_nonneg lruPolicy 3 () (initState ()) keysPermHooks_lru Reach.init⟩

/-- C9: for every reachable engine state, the snapshot's hit and miss ratios
lie in [0, 1]; they sum to exactly 1 whenever `gets > 0` (every completed
get is exactly one hit or one miss, so hits + misses = gets); and every
derived ratio whose denominator is 0 is reported as 0.  (Python's float
division is modelled as exact rational division.) -/
theorem metrics_ratio_bounds {σ : Type} (p : EvictionPolicy σ) (cap : Nat) (ps0 : σ)
    (st : EngineState σ) (h : Reach p cap ps0 st) :
    0 ≤ (snapshot st.metrics).hitRatio ∧ (snapshot st.metrics).hitRatio ≤ 1 ∧
      0 ≤ (snapshot st.metrics).missRatio ∧ (snapshot st.metrics).missRatio ≤ 1 ∧
      (0 < st.metrics.gets →
        (snapshot st.metrics).hitRatio + (snapshot st.metrics).missRatio = 1) ∧
      (st.metrics.gets = 0 → (snapshot st.metrics).hitRatio = 0 ∧
        (snapshot st.metrics).missRatio = 0 ∧
        (snapshot st.metrics).expiredRemovalRate = 0) ∧
      (st.metrics.sets = 0 → (snapshot st.metrics).getSetRatio = 0 ∧
        (snapshot st.metrics).evictionRate = 0) ∧
      (st.metrics.currentTotalKeys = 0 → (snapshot st.metrics).wastePercentage = 0) := by
  have hmg := reach_hit_miss_get h
  have hhits : st.metrics.hits ≤ st.metrics.gets := by omega
  have hmiss : st.metrics.misses ≤ st.metrics.gets := by omega
  simp only [snapshot]
  refine ⟨?_, ?_, ?_, ?_, ?_, ?_, ?_, ?_⟩
  · split
    · positivity
    · exact le_refl 0
  · split
    · rename_i hgp
      rw [div_le_one (by exact_mod_cast hgp)]
      exact_mod_cast hhits
    · norm_num
  · split
    · positivity
    · exact le_refl 0
  · split
    · rename_i hgp
      rw [div_le_one (by exact_mod_cast hgp)]
      exact_mod_cast hmiss
    · norm_num
  · intro hgp
    rw [if_pos hgp, if_pos hgp, div_add_div_same]
    have hcast : (st.metrics.hits : Rat) + st.metrics.misses = st.metrics.gets := by
      exact_mod_cast hmg
    rw [hcast]
    exact div_self (by exact_mod_cast hgp.ne')
  · intro h0
    simp [h0]
  · intro h0
    simp [h0]
  · intro h0
    simp [h0]

theorem metrics_ratio_bounds_witness :
    0 ≤ (snapshot (initState (() : Unit)).metrics).hitRatio ∧
      (snapshot (initState (() : Unit)).metrics).hitRatio ≤ 1 ∧
      0 ≤ (snapshot (initState (() : Unit)).metrics).missRatio ∧
      (snapshot (initState (() : Unit)).metrics).missRatio ≤ 1 ∧
      (0 < (initState (() : Unit)).metrics.gets →
        (snapshot (initState (() : Unit)).metrics).hitRatio +
          (snapshot (initState (() : Unit)).metrics).missRatio = 1) ∧
      ((initState (() : Unit)).metrics.gets = 0 →
        (snapshot (initState (() : Unit)).metrics).hitRatio = 0 ∧
        (snapshot (initState (() : Unit)).metrics).missRatio = 0 ∧
        (snapshot (initState (() : Unit)).metrics).expiredRemovalRate = 0) ∧
      ((initState (() : Unit)).metrics.sets = 0 →
        (snapshot (initState (() : Unit)).metrics).getSetRatio = 0 ∧
        (snapshot (initState (() : Unit)).metrics).evictionRate = 0) ∧
      ((initState (() : Unit)).metrics.currentTotalKeys = 0 →
        (snapshot (initState (() : Unit)).metrics).wastePercentage = 0) :=
  metrics_ratio_bounds lruPolicy 3 () (initState ()) Reach.init

end PyQuickCache
namespace PyQuickCache

variable {σ : Type}

theorem addInsert_resp {p : EvictionPolicy σ} {cap now : Nat} {key : String}
    {value : Nat} {ttlSec : Option TTLArg} {ttl : Int} {st1 : EngineState σ} {r st'}
    (h : addInsert p cap now key value ttlSec ttl st1 = some (r, st')) :
    r = ⟨true, Msg.text "Key added", none⟩ := by
  unfold addInsert at h
  split at h
  · exact absurd h (by simp)
  · simp only [] at h
    split at h
    · exact absurd h (by simp)
    · cases h; rfl

/-- The ttl argument does not convert to a positive integer count of
seconds (conversion fails, or yields a non-positive value). -/
def TTLNotPositive (t : TTLArg) : Prop :=
  ∀ n, pyToInt t = some n → n ≤ 0

theorem update_invalid_iff (p : EvictionPolicy σ) (now : Nat) (key : String)
    (value : Nat) (t : TTLArg) (st : EngineState σ) :
    (update p now key value t st =
      some (⟨false, Msg.text ERROR_TTL_INVALID, none⟩, st)) ↔ TTLNotPositive t := by
  constructor
  · intro h n hn
    by_contra hpos
    push_neg at hpos
    unfold update at h
    simp only [hn] at h
    rw [if_neg (by omega)] at h
    split at h
    · simp [ERROR_KEY_NOT_EXIST, ERROR_TTL_INVALID] at h
    · split at h
      · simp [ERROR_KEY_NOT_EXIST, ERROR_TTL_INVALID] at h
      · split at h
        · exact absurd h (by simp)
        · simp at h
  · intro hnp
    unfold update
    cases hpy : pyToInt t with
    | none => rfl
    | some n => simp [hnp n hpy]

theorem resolveAddTTL_truthy_pos (t : TTLArg) (ht : ttlTruthy t = true)
    {n : Int} (hn : pyToInt t = some n) (hpos : 0 < n) :
    resolveAddTTL (some t) = some n := by
  unfold resolveAddTTL
  rw [if_neg (by simp [ttlOptTruthy, ht])]
  simp only [hn]
  rw [if_neg (by omega)]

theorem resolveAddTTL_truthy_bad (t : TTLArg) (ht : ttlTruthy t = true)
    (hnp : TTLNotPositive t) : resolveAddTTL (some t) = none := by
  unfold resolveAddTTL
  rw [if_neg (by simp [ttlOptTruthy, ht])]
  cases hpy : pyToInt t with
  | none => simp [hpy]
  | some n => simp [hpy, hnp n hpy]

theorem add_invalid_iff (p : EvictionPolicy σ) (cap now : Nat) (key : String)
    (value : Nat) (t : TTLArg) (st : EngineState σ) (ht : ttlTruthy t = true) :
    (add p cap now key value (some t) st =
      some (⟨false, Msg.text ERROR_TTL_INVALID, none⟩, st)) ↔ TTLNotPositive t := by
  constructor
  · intro h n hn
    by_contra hpos
    push_neg at hpos
    unfold add at h
    simp only [resolveAddTTL_truthy_pos t ht hn hpos] at h
    split at h
    · split at h
      · simp [ERROR_KEY_EXISTS, ERROR_TTL_INVALID] at h
      · simpa using addInsert_resp h
    · simpa using addInsert_resp h
  · intro hnp
    unfold add
    simp only [resolveAddTTL_truthy_bad t ht hnp]

theorem add_falsy_no_invalid (p : EvictionPolicy σ) (cap now : Nat) (key : String)
    (value : Nat) (ttlSec : Option TTLArg) (st : EngineState σ)
    (ht : ttlOptTruthy ttlSec = false) {r : CacheResponse} {st' : EngineState σ}
    (h : add p cap now key value ttlSec st = some (r, st')) :
    r.message ≠ Msg.text ERROR_TTL_INVALID := by
  have hres : resolveAddTTL ttlSec = some DEFAULT_TTL_SEC := by
    unfold resolveAddTTL
    rw [if_pos ht]
  unfold add at h
  simp only [hres] at h
  split at h
  · split at h
    · cases h
      simp [ERROR_KEY_EXISTS, ERROR_TTL_INVALID]
    · rw [addInsert_resp h]
      simp [ERROR_TTL_INVALID]
  · rw [addInsert_resp h]
    simp [ERROR_TTL_INVALID]

end PyQuickCache
namespace PyQuickCache

/-- C3 counterexample: `add("k", 7, ttl_sec=0)` does not fail with
InvalidTTL — the falsy ttl selects the default of 5 seconds —
and the entry is written. -/
theorem add_zero_ttl_succeeds :
    (add lruPolicy 3 0 "k" 7 (some (TTLArg.int 0)) (initState ())).map
      (fun rs => (rs.1.success, rs.1.message, assocContains rs.2.cache "k")) =
      some (true, Msg.text "Key added", true) := by
  rfl

/-- C3 (amended): `update(k, v, t)` fails with InvalidTTL — leaving the
state untouched, so nothing is written — exactly when `t` does not convert
to a positive integer; `add(k, v, t)` does the same for any truthy `t`, but
a falsy `t` (0, an empty string, or omitted) silently selects the default
ttl of 5 seconds instead, so `add` never reports InvalidTTL for it. -/
theorem ttl_validation {σ : Type} (p : EvictionPolicy σ) (cap now : Nat) (key : String)
    (value : Nat) (t : TTLArg) (st : EngineState σ) :
    ((update p now key value t st =
        some (⟨false, Msg.text ERROR_TTL_INVALID, none⟩, st)) ↔ TTLNotPositive t) ∧
    (ttlTruthy t = true →
      ((add p cap now key value (some t) st =
          some (⟨false, Msg.text ERROR_TTL_INVALID, none⟩, st)) ↔ TTLNotPositive t)) ∧
    (∀ (ttlSec : Option TTLArg), ttlOptTruthy ttlSec = false →
      ∀ (r : CacheResponse) (st' : EngineState σ),
        add p cap now key value ttlSec st = some (r, st') →
        r.message ≠ Msg.text ERROR_TTL_INVALID) :=
  ⟨update_invalid_iff p now key value t st,
   fun ht => add_invalid_iff p cap now key value t st ht,
   fun ttlSec ht _ _ h => add_falsy_no_invalid p cap now key value ttlSec st ht h⟩

theorem ttl_validation_witness :
    ((update lruPolicy 0 "k" 1 (TTLArg.int 0) (initState (() : Unit)) =
        some (⟨false, Msg.text ERROR_TTL_INVALID, none⟩, initState ())) ↔
      TTLNotPositive (TTLArg.int 0)) ∧
    (ttlTruthy (TTLArg.int 0) = true →
      ((add lruPolicy 3 0 "k" 1 (some (TTLArg.int 0)) (initState ()) =
          some (⟨false, Msg.text ERROR_TTL_INVALID, none⟩, initState ())) ↔
        TTLNotPositive (TTLArg.int 0))) ∧
    (∀ (ttlSec : Option TTLArg), ttlOptTruthy ttlSec = false →
      ∀ (r : CacheResponse) (st' : EngineState Unit),
        add lruPolicy 3 0 "k" 1 ttlSec (initState ()) = some (r, st') →
        r.message ≠ Msg.text ERROR_TTL_INVALID) :=
  ttl_validation lruPolicy 3 0 "k" 1 (TTLArg.int 0) (initState ())

end PyQuickCache
namespace PyQuickCache

/-- C4: when the stored entry for `k` is already expired at call time,
`get`, `update` (with a valid ttl) and `delete` each report the KeyNotFound
failure, yet purge the expired entry as a side effect: immediately
afterwards `k` is absent from the store and `size()` has decreased by
exactly one. -/
theorem expired_purged_on_failure {σ : Type} (p : EvictionPolicy σ) (now : Nat)
    (k : String) (v : Nat) (t : TTLArg) (n : Int) (st : EngineState σ) (e : CacheEntry)
    (hN : (storeKeys st.cache).Nodup)
    (he : assocGet? st.cache k = some e)
    (hexp : e.expirationTime < now)
    (hconv : pyToInt t = some n) (hpos : 0 < n) :
    (∃ st1, get p now k st = some (⟨false, Msg.text ERROR_KEY_NOT_EXIST, none⟩, st1) ∧
      assocContains st1.cache k = false ∧ st1.cache.length + 1 = st.cache.length) ∧
    (∃ st2, update p now k v t st = some (⟨false, Msg.text ERROR_KEY_NOT_EXIST, none⟩, st2) ∧
      assocContains st2.cache k = false ∧ st2.cache.length + 1 = st.cache.length) ∧
    (∃ st3, delete now k st = some (⟨false, Msg.text ERROR_KEY_NOT_EXIST, none⟩, st3) ∧
      assocContains st3.cache k = false ∧ st3.cache.length + 1 = st.cache.length) := by
  have hc : assocContains st.cache k = true := by
    have h1 := assocGet_isSome_eq st.cache k
    rw [he] at h1
    simpa using h1.symm
  have hexpB : e.isExpired now = true := by
    simp only [CacheEntry.isExpired, gt_iff_lt, decide_eq_true_eq]
    exact hexp
  have habs : assocContains (assocErase st.cache k) k = false :=
    not_contains_assocErase_of_nodup _ _ hN
  have hlen := length_assocErase_of_get st.cache k e he
  refine ⟨?_, ?_, ?_⟩
  · unfold get
    rw [if_neg (by simp [hc]),
      @checkKey_eq_expired σ ⟨st.cache, recordGet st.metrics, st.policyState⟩ now k e
        he hexpB]
    exact ⟨_, rfl, habs, hlen⟩
  · unfold update
    simp only [hconv]
    rw [if_neg (by omega), if_neg (by simp [hc]), checkKey_eq_expired now k he hexpB]
    exact ⟨_, rfl, habs, hlen⟩
  · unfold delete
    rw [if_neg (by simp [hc]), checkKey_eq_expired now k he hexpB]
    exact ⟨_, rfl, habs, hlen⟩

theorem expired_purged_on_failure_witness :
    ((storeKeys ([("k", ⟨9, 3, none⟩)] : Store)).Nodup ∧
      assocGet? [("k", (⟨9, 3, none⟩ : CacheEntry))] "k" = some ⟨9, 3, none⟩ ∧
      (⟨9, 3, none⟩ : CacheEntry).expirationTime < 10 ∧
      pyToInt (TTLArg.int 7) = some 7 ∧ (0 : Int) < 7) ∧
    ((∃ st1, get lruPolicy 10 "k"
          (⟨[("k", ⟨9, 3, none⟩)], initMetrics, ()⟩ : EngineState Unit) =
        some (⟨false, Msg.text ERROR_KEY_NOT_EXIST, none⟩, st1) ∧
        assocContains st1.cache "k" = false ∧ st1.cache.length + 1 = 1) ∧
     (∃ st2, update lruPolicy 10 "k" 5 (TTLArg.int 7)
          (⟨[("k", ⟨9, 3, none⟩)], initMetrics, ()⟩ : EngineState Unit) =
        some (⟨false, Msg.text ERROR_KEY_NOT_EXIST, none⟩, st2) ∧
        assocContains st2.cache "k" = false ∧ st2.cache.length + 1 = 1) ∧
     (∃ st3, delete 10 "k"
          (⟨[("k", ⟨9, 3, none⟩)], initMetrics, ()⟩ : EngineState Unit) =
        some (⟨false, Msg.text ERROR_KEY_NOT_EXIST, none⟩, st3) ∧
        assocContains st3.cache "k" = false ∧ st3.cache.length + 1 = 1)) :=
  ⟨⟨by decide, by decide, by decide, by decide, by decide⟩,
    expired_purged_on_failure lruPolicy 10 "k" 5 (TTLArg.int 7) 7
      (⟨[("k", ⟨9, 3, none⟩)], initMetrics, ()⟩ : EngineState Unit) ⟨9, 3, none⟩
      (by decide) (by decide) (by decide) (by decide) (by decide)⟩

end PyQuickCache
namespace PyQuickCache

/-- C5: `get(k)` records the get attempt before anything else; when `k` is
absent it fails with KeyNotFound and records exactly one miss; when the
entry is expired it fails with KeyNotFound, records exactly one miss, and
purges the entry; when the entry is live it fires the policy's `on_access`
hook, records exactly one hit, and returns the stored value (in the
response's message slot). -/
theorem get_records_and_classifies {σ : Type} (p : EvictionPolicy σ) (now : Nat)
    (k : String) (st : EngineState σ) (hN : (storeKeys st.cache).Nodup) :
    (assocGet? st.cache k = none →
      get p now k st = some (⟨false, Msg.text ERROR_KEY_NOT_EXIST, none⟩,
        ⟨st.cache, recordMiss (recordGet st.metrics), st.policyState⟩)) ∧
    (∀ e, assocGet? st.cache k = some e → e.expirationTime < now →
      ∃ st1, get p now k st = some (⟨false, Msg.text ERROR_KEY_NOT_EXIST, none⟩, st1) ∧
        st1.metrics.gets = st.metrics.gets + 1 ∧
        st1.metrics.misses = st.metrics.misses + 1 ∧
        st1.metrics.hits = st.metrics.hits ∧
        assocContains st1.cache k = false) ∧
    (∀ e, assocGet? st.cache k = some e → ¬ e.expirationTime < now →
      ∀ ps1 cache1, p.onAccess st.policyState st.cache k = some (ps1, cache1) →
        assocGet? cache1 k = some e →
        get p now k st = some (⟨true, Msg.val e.value, none⟩,
          ⟨cache1, recordHit (recordGet st.metrics), ps1⟩)) := by
  refine ⟨?_, ?_, ?_⟩
  · intro hnone
    have hc : assocContains st.cache k = false := by
      have h1 := assocGet_isSome_eq st.cache k
      rw [hnone] at h1
      simpa using h1.symm
    unfold get
    rw [if_pos hc]
  · intro e hge hexp
    have hc : assocContains st.cache k = true := by
      have h1 := assocGet_isSome_eq st.cache k
      rw [hge] at h1
      simpa using h1.symm
    have hexpB : e.isExpired now = true := by
      simp only [CacheEntry.isExpired, gt_iff_lt, decide_eq_true_eq]
      exact hexp
    unfold get
    rw [if_neg (by simp [hc]),
      @checkKey_eq_expired σ ⟨st.cache, recordGet st.metrics, st.policyState⟩ now k e
        hge hexpB]
    refine ⟨_, rfl, ?_, ?_, ?_, ?_⟩
    · simp [recordMiss, recordGet, recordExpiredRemoval, updateValidKeys, updateTotalKeys]
    · simp [recordMiss, recordGet, recordExpiredRemoval, updateValidKeys, updateTotalKeys]
    · simp [recordMiss, recordGet, recordExpiredRemoval, updateValidKeys, updateTotalKeys]
    · exact not_contains_assocErase_of_nodup _ _ hN
  · intro e hge hlive ps1 cache1 hhook hge1
    have hc : assocContains st.cache k = true := by
      have h1 := assocGet_isSome_eq st.cache k
      rw [hge] at h1
      simpa using h1.symm
    have hliveB : e.isExpired now = false := by
      simp only [CacheEntry.isExpired, gt_iff_lt, decide_eq_false_iff_not]
      exact hlive
    unfold get
    rw [if_neg (by simp [hc]),
      @checkKey_eq_live σ ⟨st.cache, recordGet st.metrics, st.policyState⟩ now k e
        hge hliveB]
    simp only [hhook, hge1]

theorem get_records_and_classifies_witness :
    (storeKeys ([("a", ⟨1, 5, none⟩)] : Store)).Nodup ∧
    ((assocGet? ([("a", (⟨1, 5, none⟩ : CacheEntry))] : Store) "b" = none →
      get lruPolicy 0 "b" (⟨[("a", ⟨1, 5, none⟩)], initMetrics, ()⟩ : EngineState Unit) =
        some (⟨false, Msg.text ERROR_KEY_NOT_EXIST, none⟩,
          ⟨[("a", ⟨1, 5, none⟩)], recordMiss (recordGet initMetrics), ()⟩)) ∧
     (∀ e, assocGet? ([("a", (⟨1, 5, none⟩ : CacheEntry))] : Store) "b" = some e →
        e.expirationTime < 0 →
        ∃ st1, get lruPolicy 0 "b"
            (⟨[("a", ⟨1, 5, none⟩)], initMetrics, ()⟩ : EngineState Unit) =
          some (⟨false, Msg.text ERROR_KEY_NOT_EXIST, none⟩, st1) ∧
          st1.metrics.gets = initMetrics.gets + 1 ∧
          st1.metrics.misses = initMetrics.misses + 1 ∧
          st1.metrics.hits = initMetrics.hits ∧
          assocContains st1.cache "b" = false) ∧
     (∀ e, assocGet? ([("a", (⟨1, 5, none⟩ : CacheEntry))] : Store) "b" = some e →
        ¬ e.expirationTime < 0 →
        ∀ ps1 cache1, lruPolicy.onAccess () [("a", ⟨1, 5, none⟩)] "b" = some (ps1, cache1) →
          assocGet? cache1 "b" = some e →
          get lruPolicy 0 "b"
              (⟨[("a", ⟨1, 5, none⟩)], initMetrics, ()⟩ : EngineState Unit) =
            some (⟨true, Msg.val e.value, none⟩,
              ⟨cache1, recordHit (recordGet initMetrics), ps1⟩))) :=
  ⟨by decide,
    get_records_and_classifies lruPolicy 0 "b"
      (⟨[("a", ⟨1, 5, none⟩)], initMetrics, ()⟩ : EngineState Unit) (by decide)⟩

end PyQuickCache
namespace PyQuickCache

/-- C8: with capacity ≥ 1, the eviction loop of the add path always
completes with the size strictly below capacity: `select_eviction_key` is
only consulted on a non-empty store (so the policy's empty-store error
branch never fires and the loop never raises), and the loop terminates
because each iteration pops one entry — fuel equal to the store size always
suffices, as `_ensure_capacity` uses. -/
theorem eviction_loop_safe (cap : Nat) (hcap : 1 ≤ cap) :
    (∀ (fuel : Nat) (st : EngineState Unit), st.cache.length ≤ fuel + (cap - 1) →
      ∃ st', evictLoop lruPolicy cap fuel st = some st' ∧ st'.cache.length < cap) ∧
    (∀ (now : Nat) (st : EngineState Unit),
      ∃ st', ensureCapacity lruPolicy cap now st = some st' ∧ st'.cache.length < cap) := by
  have main : ∀ (fuel : Nat) (st : EngineState Unit), st.cache.length ≤ fuel + (cap - 1) →
      ∃ st', evictLoop lruPolicy cap fuel st = some st' ∧ st'.cache.length < cap := by
    intro fuel
    induction fuel with
    | zero =>
      intro st hle
      refine ⟨st, ?_, by omega⟩
      unfold evictLoop
      rw [if_neg (by omega)]
    | succ fuel ih =>
      intro st hle
      obtain ⟨cache, m, ps⟩ := st
      simp only [EngineState.cache] at hle
      by_cases hge : cache.length ≥ cap
      · cases cache with
        | nil => simp at hge; omega
        | cons kv rest =>
          obtain ⟨k1, e1⟩ := kv
          have hsel : evictLoop lruPolicy cap (fuel + 1)
                (⟨(k1, e1) :: rest, m, ps⟩ : EngineState Unit) =
              evictLoop lruPolicy cap fuel
                ⟨rest,
                 updateValidKeys (updateTotalKeys (recordEviction m) rest.length)
                   (rest.length : Int), ps⟩ := by
            conv_lhs => unfold evictLoop
            rw [if_pos hge]
            simp [lruPolicy, assocContains, assocErase]
          rw [hsel]
          refine ih _ ?_
          simp only [List.length_cons] at hle
          simp only [EngineState.cache]
          omega
      · refine ⟨⟨cache, m, ps⟩, ?_, by simp only [EngineState.cache]; omega⟩
        unfold evictLoop
        rw [if_neg hge]
  refine ⟨main, ?_⟩
  intro now st
  unfold ensureCapacity
  exact main _ _ (by omega)

theorem eviction_loop_safe_witness :
    1 ≤ 1 ∧
      ∃ st', ensureCapacity lruPolicy 1 0
          (⟨[("a", ⟨0, 5, none⟩), ("b", ⟨1, 5, none⟩)], initMetrics, ()⟩ :
            EngineState Unit) = some st' ∧ st'.cache.length < 1 :=
  ⟨by decide,
    (eviction_loop_safe 1 (by decide)).2 0
      (⟨[("a", ⟨0, 5, none⟩), ("b", ⟨1, 5, none⟩)], initMetrics, ()⟩ : EngineState Unit)⟩

end PyQuickCache
namespace PyQuickCache

theorem fifo_get_zero (st : EngineState Unit) (k : String) (e : CacheEntry)
    (hge : assocGet? st.cache k = some e) :
    get fifoPolicy 0 k st = some (⟨true, Msg.val e.value, none⟩,
      ⟨st.cache, recordHit (recordGet st.metrics), ()⟩) := by
  have hc : assocContains st.cache k = true := by
    have h1 := assocGet_isSome_eq st.cache k
    rw [hge] at h1
    simpa using h1.symm
  unfold get
  rw [if_neg (by simp [hc]),
    @checkKey_eq_live Unit ⟨st.cache, recordGet st.metrics, st.policyState⟩ 0 k e hge
      (by simp [CacheEntry.isExpired])]
  simp only [fifoPolicy, hge]

theorem fifo_update_zero (st : EngineState Unit) (k : String) (v : Nat) (t : TTLArg)
    (n : Int) (hpy : pyToInt t = some n) (hpos : 0 < n) (e : CacheEntry)
    (hge : assocGet? st.cache k = some e) :
    ∃ st', update fifoPolicy 0 k v t st =
        some (⟨true, Msg.text "Key updated", none⟩, st') ∧
      storeKeys st'.cache = storeKeys st.cache ∧
      st'.metrics.evictions = st.metrics.evictions := by
  have hc : assocContains st.cache k = true := by
    have h1 := assocGet_isSome_eq st.cache k
    rw [hge] at h1
    simpa using h1.symm
  unfold update
  simp only [hpy]
  rw [if_neg (by omega), if_neg (by simp [hc]),
    @checkKey_eq_live Unit st 0 k e hge (by simp [CacheEntry.isExpired])]
  simp only [fifoPolicy]
  refine ⟨_, rfl, ?_, ?_⟩
  · exact keys_assocSet_of_contains st.cache k _ hc
  · simp [updateValidKeys, updateTotalKeys, recordSet]

/-- An intervening call between add C and add D: a get of "A" or an update
of "A" (with any value and ttl argument). -/
def IsInterveningA : EngineOp → Prop
  | .getOp k => k = "A"
  | .updateOp k _ _ => k = "A"
  | _ => False

theorem runInter_keys (ops : List EngineOp) :
    (∀ o ∈ ops, IsInterveningA o) →
    ∀ st : EngineState Unit, storeKeys st.cache = ["A", "B", "C"] →
      st.metrics.evictions = 0 →
      ∀ stMid, runOpsOk fifoPolicy 3 0 ops st = some stMid →
        storeKeys stMid.cache = ["A", "B", "C"] ∧ stMid.metrics.evictions = 0 := by
  induction ops with
  | nil =>
    intro _ st hk he stMid h
    simp only [runOpsOk, Option.some.injEq] at h
    rw [← h]
    exact ⟨hk, he⟩
  | cons op ops ih =>
    intro hops st hk he stMid h
    have hopA := hops op (List.mem_cons_self _ _)
    have hops' : ∀ o ∈ ops, IsInterveningA o := fun o ho => hops o (List.mem_cons_of_mem _ ho)
    have hcont : assocContains st.cache "A" = true := by
      refine (assocContains_iff_mem _ _).mpr ?_
      rw [show st.cache.map (·.1) = ["A", "B", "C"] from hk]
      simp
    have hsome : (assocGet? st.cache "A").isSome = true := by
      rw [assocGet_isSome_eq]
      exact hcont
    obtain ⟨e, hge⟩ := Option.isSome_iff_exists.mp hsome
    cases op with
    | addOp k v t => exact hopA.elim
    | deleteOp k => exact hopA.elim
    | getOp k =>
      have hkA : k = "A" := hopA
      subst hkA
      rw [runOpsOk] at h
      simp only [runOp] at h
      rw [fifo_get_zero st "A" e hge] at h
      simp only [if_pos] at h
      exact ih hops' ⟨st.cache, recordHit (recordGet st.metrics), ()⟩ hk
        (by simpa [recordHit, recordGet] using he) stMid h
    | updateOp k v t =>
      have hkA : k = "A" := hopA
      subst hkA
      rw [runOpsOk] at h
      simp only [runOp] at h
      cases hpy : pyToInt t with
      | none =>
        have hbad : update fifoPolicy 0 "A" v t st =
            some (⟨false, Msg.text ERROR_TTL_INVALID, none⟩, st) := by
          unfold update
          rw [hpy]
        rw [hbad] at h
        simp at h
      | some n =>
        by_cases hpos : 0 < n
        · obtain ⟨st1, hu, hkeys1, hev1⟩ := fifo_update_zero st "A" v t n hpy hpos e hge
          rw [hu] at h
          simp only [if_pos] at h
          exact ih hops' _ (hkeys1.trans hk) (hev1.trans he) stMid h
        · have hbad : update fifoPolicy 0 "A" v t st =
              some (⟨false, Msg.text ERROR_TTL_INVALID, none⟩, st) := by
            unfold update
            simp only [hpy]
            rw [if_pos (by omega)]
          rw [hbad] at h
          simp at h

theorem fifo_addD (st : EngineState Unit) (hk : storeKeys st.cache = ["A", "B", "C"]) :
    (add fifoPolicy 3 0 "D" 4 none st).map
      (fun rs => (rs.1, storeKeys rs.2.cache, rs.2.metrics.evictions)) =
      some (⟨true, Msg.text "Key added", none⟩, (["B", "C", "D"],
        st.metrics.evictions + 1)) := by
  obtain ⟨cache, m, ps⟩ := st
  simp only [EngineState.cache] at hk
  cases cache with
  | nil => simp [storeKeys] at hk
  | cons p1 r1 =>
    cases r1 with
    | nil => simp [storeKeys] at hk
    | cons p2 r2 =>
      cases r2 with
      | nil => simp [storeKeys] at hk
      | cons p3 r3 =>
        cases r3 with
        | cons p4 r4 => simp [storeKeys] at hk
        | nil =>
          obtain ⟨K1, E1⟩ := p1
          obtain ⟨K2, E2⟩ := p2
          obtain ⟨K3, E3⟩ := p3
          simp only [storeKeys, List.map_cons, List.map_nil, List.cons.injEq,
            and_true] at hk
          obtain ⟨hk1, hk2, hk3⟩ := hk
          subst hk1
          subst hk2
          subst hk3
          simp [add, resolveAddTTL, ttlOptTruthy, addInsert, ensureCapacity, cleanup_zero,
            evictLoop, fifoPolicy, assocContains, assocErase, assocSet, storeKeys,
            recordEviction, recordSet, updateTotalKeys, updateValidKeys, DEFAULT_TTL_SEC]

end PyQuickCache
namespace PyQuickCache

/-- C7: under FIFO with capacity 3 at one instant (so nothing expires),
after add A, add B, add C, any number of intervening successful `get("A")`
or `update("A", ...)` calls leaves the eviction order untouched:
`add("D")` still succeeds and evicts exactly A, leaving keys B, C, D with
exactly one eviction. -/
theorem fifo_insensitive_to_access (ops : List EngineOp)
    (hops : ∀ o ∈ ops, IsInterveningA o) (stMid : EngineState Unit)
    (hrun : (runOpsOk fifoPolicy 3 0
        [.addOp "A" 1 none, .addOp "B" 2 none, .addOp "C" 3 none]
        (initState ())).bind (runOpsOk fifoPolicy 3 0 ops) = some stMid) :
    (add fifoPolicy 3 0 "D" 4 none stMid).map
      (fun rs => (rs.1, storeKeys rs.2.cache, rs.2.metrics.evictions)) =
      some (⟨true, Msg.text "Key added", none⟩, (["B", "C", "D"], 1)) := by
  obtain ⟨s0, hs0, hrun2⟩ := Option.bind_eq_some.mp hrun
  have h1 : some ((["A", "B", "C"] : List String), (0 : Nat)) =
      some (storeKeys s0.cache, s0.metrics.evictions) := by
    calc some ((["A", "B", "C"] : List String), (0 : Nat)) =
        (runOpsOk fifoPolicy 3 0
            [.addOp "A" 1 none, .addOp "B" 2 none, .addOp "C" 3 none]
            (initState ())).map (fun s => (storeKeys s.cache, s.metrics.evictions)) := by
          rfl
      _ = (some s0).map (fun s => (storeKeys s.cache, s.metrics.evictions)) := by rw [hs0]
      _ = some (storeKeys s0.cache, s0.metrics.evictions) := rfl
  simp only [Option.some.injEq, Prod.mk.injEq] at h1
  obtain ⟨hk0, he0⟩ := h1
  obtain ⟨hkM, heM⟩ := runInter_keys ops hops s0 hk0.symm he0.symm stMid hrun2
  have hfin := fifo_addD stMid hkM
  rw [heM] at hfin
  exact hfin

theorem fifo_insensitive_to_access_witness :
    ∃ stMid, ((runOpsOk fifoPolicy 3 0
          [.addOp "A" 1 none, .addOp "B" 2 none, .addOp "C" 3 none]
          (initState ())).bind (runOpsOk fifoPolicy 3 0
            [.getOp "A", .updateOp "A" 9 (TTLArg.int 7), .getOp "A"]) = some stMid) ∧
      (add fifoPolicy 3 0 "D" 4 none stMid).map
        (fun rs => (rs.1, storeKeys rs.2.cache, rs.2.metrics.evictions)) =
        some (⟨true, Msg.text "Key added", none⟩, (["B", "C", "D"], 1)) := by
  have hs : ((runOpsOk fifoPolicy 3 0
      [.addOp "A" 1 none, .addOp "B" 2 none, .addOp "C" 3 none]
      (initState ())).bind (runOpsOk fifoPolicy 3 0
        [.getOp "A", .updateOp "A" 9 (TTLArg.int 7), .getOp "A"])).isSome = true := by
    rfl
  obtain ⟨stMid, hb⟩ := Option.isSome_iff_exists.mp hs
  exact ⟨stMid, hb,
    fifo_insensitive_to_access [.getOp "A", .updateOp "A" 9 (TTLArg.int 7), .getOp "A"]
      (by simp [IsInterveningA]) stMid hb⟩

end PyQuickCache
